import Mathlib

/-!
Verification of the BareMetal-Drivers graphics stack against its
natural-language specification.

The development shallowly embeds the C sources:
* geometry value types and rectangle utilities
  (`lib/graphic/base/point.h`, `rectangle.h`, `rectangle.c`, `base_helpers.h`);
* the two framebuffer encoders
  (`lib/oled/driver/backend/oled_iic_130x.c`, `oled_iic_132x.c`);
* the device binding layer (`lib/graphic/device/grapgic_device.c`,
  `oled/oled_graphic_device.c`);
* the rasterizers (`lib/graphic/base/line.c`, `circle.c`).

Machine integers are embedded as `Nat`/`Int` with explicit wrapping or
clamping exactly where the C code stores into a narrower type.  Framebuffer
caches are functions from (row, column) indices to byte values.
-/

/-- `PointBaseType` is `uint16_t`; coordinates are carried as `Nat`
(values produced by the embedded operations stay below 2^16). -/

structure GPoint where
  x : ℕ
  y : ℕ
deriving DecidableEq, Repr

/-- `CFBDGraphicRect` from `rectangle.h`: two corner points, in any order. -/
structure GRect where
  tl : GPoint
  br : GPoint
deriving DecidableEq, Repr

/-- `clamp_u16_from_i32` from `base_helpers.h`: clamp a signed 32-bit value
into `[0, 65535]`.  The intermediate `INT_MAX` cap of the source is kept. -/
def clamp_u16_from_i32 (v : ℤ) : ℕ :=
  if v < 0 then 0
  else if v > 2147483647 then 65535  -- v := INT_MAX, then the 65535 cap fires
  else if v > 65535 then 65535
  else v.toNat

/-- `rect_normalize` from `rectangle.h`: order the corners so that `tl` is
the componentwise minimum and `br` the componentwise maximum. -/
def rect_normalize (r : GRect) : GRect :=
  let x1 := r.tl.x; let y1 := r.tl.y
  let x2 := r.br.x; let y2 := r.br.y
  let lx := if x1 < x2 then x1 else x2
  let rx := if x1 < x2 then x2 else x1
  let ty := if y1 < y2 then y1 else y2
  let by_ := if y1 < y2 then y2 else y1
  ⟨⟨lx, ty⟩, ⟨rx, by_⟩⟩

/-- `rect_width` from `rectangle.h`: normalize, then subtract the x
coordinates (the subtraction cannot underflow after normalization). -/
def rect_width (r : GRect) : ℕ :=
  let n := rect_normalize r
  n.br.x - n.tl.x

/-- `rect_height` from `rectangle.h`. -/
def rect_height (r : GRect) : ℕ :=
  let n := rect_normalize r
  n.br.y - n.tl.y

/-- `rect_from_xywh` from `rectangle.h`: clamp each corner coordinate into
the `uint16` range, then normalize. -/
def rect_from_xywh (x y w h : ℤ) : GRect :=
  rect_normalize ⟨⟨clamp_u16_from_i32 x, clamp_u16_from_i32 y⟩,
                  ⟨clamp_u16_from_i32 (x + w), clamp_u16_from_i32 (y + h)⟩⟩

/-!
Device binding layer: `lib/graphic/device/grapgic_device.c` and
`lib/graphic/device/oled/oled_graphic_device.c`.

Pointers are embedded as natural numbers with `0` playing the role of
`NULL`; the single operation table `graphic_oled_ops` of the program is an
inductive tag stored in an `Option` (`none` = uninitialised table pointer).
-/

/-- The operation tables that exist in the program. -/
inductive OpsTable where
  | graphicOledOps
deriving DecidableEq, Repr

/-- `CFBD_GraphicDevice` from `graphic_device.h`: operation-table pointer,
device-type tag (a C enum carried as an integer; `OLED = 0`), opaque
internal backend handle, immediate-draw flag. -/
structure GraphicDevice where
  ops : Option OpsTable
  device_type : ℕ
  internal_handle : ℕ
  immediate_draw : Bool
deriving DecidableEq, Repr

/-- `CFBDGraphic_BindOLEDAsDevice` from `oled_graphic_device.c`: a guard
returns the device unchanged when the OLED handle (or its ops field,
carried here as the flag `oledOpsNull`) is `NULL`; otherwise the adapter
table, the `OLED` tag and the backend handle are installed. -/
def CFBDGraphic_BindOLEDAsDevice (device : GraphicDevice) (oled : ℕ)
    (oledOpsNull : Bool) : GraphicDevice :=
  if oled = 0 ∨ oledOpsNull then device
  else { device with
          ops := some .graphicOledOps
          device_type := 0
          internal_handle := oled }

/-- `CFBDGraphic_BindDevice` from `grapgic_device.c`: the handle's
`internal_handle` and `device_type` fields are assigned *before* the
switch on the tag; only the recognized tag `OLED = 0` dispatches to the
OLED adapter, every other tag falls through the `default` case. -/
def CFBDGraphic_BindDevice (device : GraphicDevice) (device_type : ℕ)
    (internal_handle : ℕ) (oledOpsNull : Bool) : GraphicDevice :=
  let device := { device with
                    internal_handle := internal_handle
                    device_type := device_type }
  match device_type with
  | 0 => CFBDGraphic_BindOLEDAsDevice device internal_handle oledOpsNull
  | _ => device

/-!
Framebuffer encoders.

`oled_iic_130x.c` (1bpp paged): the cache is `OLED_GRAM[CACHED_HEIGHT][CACHED_WIDTH]`
indexed page-first.  `oled_iic_132x.c` (4bpp packed): the cache is indexed
row-first, each byte holding two horizontally adjacent pixels.

A cache is embedded as a function from (row index, column index) to the
byte stored there; stores into the `uint8_t` array take the value `% 256`.
-/

/-- A framebuffer cache: (row, column) ↦ byte. -/
abbrev Cache := ℕ → ℕ → ℕ

/-- Point update of one cache byte. -/
def cacheWrite (c : Cache) (p q v : ℕ) : Cache :=
  fun p' q' => if p' = p ∧ q' = q then v else c p' q'

/-- The all-zero cache (a freshly cleared `OLED_GRAM`). -/
def zeroCache : Cache := fun _ _ => 0

/-- `logic_width` installed by `ssd1309.c` for the 1bpp backend. -/
def LOGIC_WIDTH_130X : ℕ := 128

/-- `logic_height` installed by `ssd1309.c` for the 1bpp backend. -/
def LOGIC_HEIGHT_130X : ℕ := 64

/-- Modelled from the spec: `configs/cache_config-ssd130x.h` is not among
the sources (only the ssd132x variant is).  The spec fixes the 1bpp
display at 128×64 with 8-pixel-tall pages, so the paged cache has 8 page
rows; this is the `CACHED_HEIGHT` of the missing header. -/
def CACHED_HEIGHT_130X : ℕ := 8

/-- Modelled from the spec: the column count of the missing
`configs/cache_config-ssd130x.h`, 128 columns for the 128×64 display. -/
def CACHED_WIDTH_130X : ℕ := 128

/-- `logic_width` installed by `ssd1327.c` for the 4bpp backend. -/
def LOGIC_WIDTH_132X : ℕ := 128

/-- `logic_height` installed by `ssd1327.c` for the 4bpp backend. -/
def LOGIC_HEIGHT_132X : ℕ := 96

/-- `CACHED_HEIGHT` from `configs/cache_config-ssd132x.h`. -/
def CACHED_HEIGHT_132X : ℕ := 96

/-- `CACHED_WIDTH` from `configs/cache_config-ssd132x.h`. -/
def CACHED_WIDTH_132X : ℕ := 64

/-- `setPixel` from `oled_iic_130x.c`: inside the logical bounds, OR bit
`y % 8` into `OLED_GRAM[y / 8][x]`; always returns `CFBD_TRUE`. -/
def setPixel130 (c : Cache) (x y : ℕ) : Cache × Bool :=
  if x < LOGIC_WIDTH_130X ∧ y < LOGIC_HEIGHT_130X then
    (cacheWrite c (y / 8) x ((c (y / 8) x ||| (1 <<< (y % 8))) % 256), true)
  else (c, true)

/-- `oled_helper_clear_area` from `oled_iic_130x.c`: reject a start point
outside the logical bounds, truncate the extent, then AND the pixel's bit
away in every covered cell (`&= ~(0x01 << (i % 8))`; together with the
`uint8_t` store this keeps exactly the low 8 bits not at position `i % 8`). -/
def oled_helper_clear_area130 (c : Cache) (x y w h : ℕ) : Cache × Bool :=
  if x ≥ LOGIC_WIDTH_130X then (c, false)
  else if y ≥ LOGIC_HEIGHT_130X then (c, false)
  else
    let w := if x + w > LOGIC_WIDTH_130X then LOGIC_WIDTH_130X - x else w
    let h := if y + h > LOGIC_HEIGHT_130X then LOGIC_HEIGHT_130X - y else h
    (List.foldl
      (fun cc di =>
        List.foldl
          (fun cc dj =>
            cacheWrite cc ((y + di) / 8) (x + dj)
              ((cc ((y + di) / 8) (x + dj)) &&& (255 ^^^ (1 <<< ((y + di) % 8)))))
          cc (List.range w))
      c (List.range h), true)

/-- `setPixel` from `oled_iic_132x.c`: out-of-bounds coordinates are
rejected; otherwise a read-modify-write of the nibble selected by the
parity of `x` in byte `(y, x / 2)`, with the configured grey level. -/
def setPixel132 (grey : ℕ) (c : Cache) (x y : ℕ) : Cache × Bool :=
  if x ≥ LOGIC_WIDTH_132X ∨ y ≥ LOGIC_HEIGHT_132X then (c, false)
  else
    let col := x / 2
    if x % 2 = 0 then
      (cacheWrite c y col (((c y col &&& 0x0F) ||| (grey <<< 4)) % 256), true)
    else
      (cacheWrite c y col (((c y col &&& 0xF0) ||| grey) % 256), true)

/-!
`oled_helper_update_area` of both encoders.  What matters for the claim is
*which* cache bytes are handed to the transport, so the embedding returns
the list of (page-or-row, column) indices of the bytes passed to
`send_data`, in transmission order.  C `int` arithmetic inside the loop
bounds (`(y + height - 1) / 8 + 1`, `(x + width - 1) / 2`) is embedded
with `Int.tdiv`, C's truncating division.
-/

/-- `oled_helper_update_area` from `oled_iic_130x.c`: bytes transmitted as
(page, column) pairs. -/
def oled_helper_update_area130_sends (x y w h : ℕ) : List (ℕ × ℕ) :=
  if x ≥ LOGIC_WIDTH_130X then []
  else if y ≥ LOGIC_HEIGHT_130X then []
  else
    let w := if x + w > LOGIC_WIDTH_130X then LOGIC_WIDTH_130X - x else w
    let h := if y + h > LOGIC_HEIGHT_130X then LOGIC_HEIGHT_130X - y else h
    let pageBound := (Int.tdiv ((y : ℤ) + h - 1) 8 + 1).toNat
    (List.range' (y / 8) (pageBound - y / 8)).flatMap
      (fun i => (List.range w).map (fun t => (i, x + t)))

/-- `oled_helper_update_area` from `oled_iic_132x.c`: bytes transmitted as
(row, byte-column) pairs; `col_start = x / 2`,
`col_end = (x + width - 1) / 2`, each row sends
`col_end - col_start + 1` bytes. -/
def oled_helper_update_area132_sends (x y w h : ℕ) : List (ℕ × ℕ) :=
  if x ≥ LOGIC_WIDTH_132X then []
  else if y ≥ LOGIC_HEIGHT_132X then []
  else
    let w := if x + w > LOGIC_WIDTH_132X then LOGIC_WIDTH_132X - x else w
    let h := if y + h > LOGIC_HEIGHT_132X then LOGIC_HEIGHT_132X - y else h
    let colStart := x / 2
    let colEnd : ℤ := Int.tdiv ((x : ℤ) + w - 1) 2
    (List.range' y h).flatMap
      (fun row => (List.range' colStart ((colEnd - colStart + 1).toNat)).map
        (fun cl => (row, cl)))

/-- A transmitted 1bpp byte at (page, column) is legitimate for the request
`(x, y, w, h)` when its column lies in `[x, x+w)` and inside the logical
width, and its page's 8-row stripe meets `[y, y+h)` and the logical height. -/
def sentOK130 (x y w h : ℕ) (pc : ℕ × ℕ) : Prop :=
  (x ≤ pc.2 ∧ pc.2 < x + w ∧ pc.2 < 128) ∧
  (y < (pc.1 + 1) * 8 ∧ pc.1 * 8 < y + h ∧ pc.1 * 8 < 64)

/-- A transmitted 4bpp byte at (row, byte-column) is legitimate when its row
lies in `[y, y+h)` and inside the logical height, and the two pixel columns
`2c, 2c+1` it carries meet `[x, x+w)` and the logical width. -/
def sentOK132 (x y w h : ℕ) (rc : ℕ × ℕ) : Prop :=
  (y ≤ rc.1 ∧ rc.1 < y + h ∧ rc.1 < 96) ∧
  (x ≤ 2 * rc.2 + 1 ∧ 2 * rc.2 < x + w ∧ 2 * rc.2 < 128)

/-!
`oled_helper_draw_area` from `oled_iic_130x.c` — the cache *indices* it
writes.  The function first calls `oled_helper_clear_area`, then runs a
page loop `j` and a column loop `i` with three guards: `break` when
`x + i > CACHED_WIDTH` (note: `>`, not `>=`), `return CFBD_TRUE` when
`y / 8 + j > CACHED_HEIGHT - 1`, and `continue` (skipping only the
carry write into the next page) when `y / 8 + j + 1 > CACHED_HEIGHT - 1`.
-/

/-- The (page, column) indices written by `oled_helper_clear_area`. -/
def clearAreaWrites130 (x y w h : ℕ) : List (ℕ × ℕ) :=
  if x ≥ LOGIC_WIDTH_130X then []
  else if y ≥ LOGIC_HEIGHT_130X then []
  else
    let w := if x + w > LOGIC_WIDTH_130X then LOGIC_WIDTH_130X - x else w
    let h := if y + h > LOGIC_HEIGHT_130X then LOGIC_HEIGHT_130X - y else h
    (List.range h).flatMap
      (fun di => (List.range w).map (fun dj => ((y + di) / 8, x + dj)))

/-- Inner column loop of `oled_helper_draw_area`: the (page, column)
indices written for one page index `j`, together with the early-`return`
flag. -/
def drawAreaInnerWrites130 (x y j : ℕ) : List ℕ → List (ℕ × ℕ) × Bool
  | [] => ([], false)
  | i :: rest =>
    if x + i > CACHED_WIDTH_130X then ([], false)
    else if y / 8 + j > CACHED_HEIGHT_130X - 1 then ([], true)
    else
      let carry := if y / 8 + j + 1 > CACHED_HEIGHT_130X - 1 then []
                   else [(y / 8 + j + 1, x + i)]
      let p := drawAreaInnerWrites130 x y j rest
      ((y / 8 + j, x + i) :: carry ++ p.1, p.2)

/-- Outer page loop of `oled_helper_draw_area`: concatenated write
indices, stopping at an early `return`. -/
def drawAreaOuterWrites130 (x y : ℕ) (w : ℕ) : List ℕ → List (ℕ × ℕ)
  | [] => []
  | j :: rest =>
    let p := drawAreaInnerWrites130 x y j (List.range w)
    if p.2 then p.1 else p.1 ++ drawAreaOuterWrites130 x y w rest

/-- All cache indices written by `oled_helper_draw_area(x, y, w, h, src)`
(the source bytes do not influence which cells are written). -/
def oled_helper_draw_area130_writes (x y w h : ℕ) : List (ℕ × ℕ) :=
  if x ≥ LOGIC_WIDTH_130X then []
  else if y ≥ LOGIC_HEIGHT_130X then []
  else
    clearAreaWrites130 x y w h ++
    drawAreaOuterWrites130 x y w (List.range ((h - 1) / 8 + 1))

/-!
Cache-valued embedding of `oled_helper_draw_area` from `oled_iic_130x.c`:
clear the area, then for each page row `j` and column offset `i` OR
`src[j*w+i] << (y % 8)` into page `y/8 + j` and, unless that would pass the
last page, OR `src[j*w+i] >> (8 - y % 8)` into page `y/8 + j + 1`.
-/

/-- Inner column loop of `oled_helper_draw_area` (cache-valued). -/
def drawAreaInner130 (x y w : ℕ) (src : ℕ → ℕ) (j : ℕ) :
    List ℕ → Cache → Cache × Bool
  | [], c => (c, false)
  | i :: rest, c =>
    if x + i > CACHED_WIDTH_130X then (c, false)
    else if y / 8 + j > CACHED_HEIGHT_130X - 1 then (c, true)
    else
      let c1 := cacheWrite c (y / 8 + j) (x + i)
        ((c (y / 8 + j) (x + i) ||| (src (j * w + i) <<< (y % 8))) % 256)
      let c2 := if y / 8 + j + 1 > CACHED_HEIGHT_130X - 1 then c1
                else cacheWrite c1 (y / 8 + j + 1) (x + i)
                  ((c1 (y / 8 + j + 1) (x + i) ||| (src (j * w + i) >>> (8 - y % 8))) % 256)
      drawAreaInner130 x y w src j rest c2

/-- Outer page loop of `oled_helper_draw_area` (cache-valued). -/
def drawAreaOuter130 (x y w : ℕ) (src : ℕ → ℕ) : List ℕ → Cache → Cache
  | [], c => c
  | j :: rest, c =>
    let p := drawAreaInner130 x y w src j (List.range w) c
    if p.2 then p.1 else drawAreaOuter130 x y w src rest p.1

/-- `oled_helper_draw_area` from `oled_iic_130x.c`. -/
def oled_helper_draw_area130 (c : Cache) (x y w h : ℕ) (src : ℕ → ℕ) : Cache × Bool :=
  if x ≥ LOGIC_WIDTH_130X then (c, false)
  else if y ≥ LOGIC_HEIGHT_130X then (c, false)
  else
    let c := (oled_helper_clear_area130 c x y w h).1
    (drawAreaOuter130 x y w src (List.range ((h - 1) / 8 + 1)) c, true)

/-- Pixel read-back from the 1bpp paged cache. -/
def getPixel130 (c : Cache) (col row : ℕ) : Bool :=
  (c (row / 8) col).testBit (row % 8)

/-!
`CFBDGraphic_DrawCircle` from `lib/graphic/base/circle.c`: midpoint circle
loop with initial decision variable `d = 3 - radius / 4`, plotting four
axis points first and then eight octant points per iteration.  The loop
`while (x < y)` increments `x` each pass, so it runs fewer than `r + 1`
times; the recursion below carries `r + 1` iterations of fuel and
`circleLoop_fuel_irrelevant` shows any sufficient fuel gives the same
point list.  `int16_t` arithmetic stays far from overflow for the radii a
28×64-bounded circle allows, so plain `ℤ` is used.
-/

/-- The eight octant points plotted in one loop iteration, in source order. -/
def circleOctetPoints (x y : ℤ) : List (ℤ × ℤ) :=
  [(x, y), (y, x), (-x, -y), (-y, -x), (x, -y), (y, -x), (-x, y), (-y, x)]

/-- The `while (x < y)` loop of `CFBDGraphic_DrawCircle`. -/
def circleLoop (x y d : ℤ) : ℕ → List (ℤ × ℤ)
  | 0 => []
  | fuel + 1 =>
    if x < y then
      if d < 0 then
        circleOctetPoints (x + 1) y ++
          circleLoop (x + 1) y (d + 2 * (x + 1) + 1) fuel
      else
        circleOctetPoints (x + 1) (y - 1) ++
          circleLoop (x + 1) (y - 1) (d + 2 * ((x + 1) - (y - 1)) + 1) fuel
    else []

/-- All center-relative offsets plotted by `CFBDGraphic_DrawCircle` for
radius `r`: the four initial axis points, then the loop. -/
def CFBDGraphic_DrawCircle_offsets (r : ℕ) : List (ℤ × ℤ) :=
  let x0 : ℤ := 0
  let y0 : ℤ := (r : ℤ)
  let d : ℤ := 3 - ((r / 4 : ℕ) : ℤ)
  [(x0, y0), (-x0, -y0), (y0, x0), (-y0, -x0)] ++ circleLoop x0 y0 d (r + 1)

/-- The pixels `CFBDGraphic_DrawCircle` stores into the 1bpp cache: each
plotted offset is added to the center in `uint16_t` arithmetic (`% 65536`)
and then passes `setPixel`'s logical-bounds check. -/
def circlePixels (cx cy r : ℕ) : List (ℕ × ℕ) :=
  ((CFBDGraphic_DrawCircle_offsets r).map
    (fun o => ((((cx : ℤ) + o.1) % 65536).toNat, (((cy : ℤ) + o.2) % 65536).toNat))).filter
    (fun p => decide (p.1 < LOGIC_WIDTH_130X) && decide (p.2 < LOGIC_HEIGHT_130X))

/-!
`CFBDGraphic_DrawLine` from `lib/graphic/base/line.c`, embedded as the
trace of device-operation calls it makes.  Note that the source's
`clearBounds` computes the bounding box (`lx/rx/ty/by`, swapped into
order) and then returns without calling any device operation, so its
trace is empty.  `int16_t` stores wrap via `wrap16`; passing an `int16_t`
to a `uint16_t` parameter converts via `% 65536`.
-/

/-- A device-operation call made by a rasterizer. -/
inductive DevEvent where
  | clearA (x y w h : ℕ)
  | px (x y : ℕ)
  | updateA (x y w h : ℕ)
deriving DecidableEq, Repr

/-- Whether an event is a `clear_area` call. -/
def DevEvent.isClearArea : DevEvent → Bool
  | .clearA _ _ _ _ => true
  | _ => false

/-- Whether an event is a `setPixel` call. -/
def DevEvent.isSetPixel : DevEvent → Bool
  | .px _ _ => true
  | _ => false

/-- Reading a `uint16_t` into an `int16_t` (two's complement). -/
def asInt16 (v : ℕ) : ℤ :=
  if v % 65536 < 32768 then (v % 65536 : ℕ) else (v % 65536 : ℕ) - 65536

/-- Wrap of an `int` value stored into an `int16_t`. -/
def wrap16 (v : ℤ) : ℤ := ((v + 32768) % 65536) - 32768

/-- Passing an integer to a `uint16_t` parameter. -/
def asU16 (v : ℤ) : ℕ := (v % 65536).toNat

/-- A line as in `CFBDGraphic_Line`. -/
structure GLine where
  p_left : GPoint
  p_right : GPoint
deriving DecidableEq, Repr

/-- `clearBounds` from `line.c`: computes the ordered bounding box of the
line and returns; it performs no device call, so its trace is empty. -/
def clearBounds_trace (_l : GLine) : List DevEvent := []

/-- `__on_handle_vertical_line`: plot `x, i` for `i` from the smaller to
the larger `y`. -/
def verticalLineTrace (l : GLine) : List DevEvent :=
  let maxY := max l.p_left.y l.p_right.y
  let minY := min l.p_left.y l.p_right.y
  (List.range' minY (maxY - minY + 1)).map (fun i => .px l.p_left.x i)

/-- `__on_handle_horizental_line`. -/
def horizontalLineTrace (l : GLine) : List DevEvent :=
  let maxX := max l.p_left.x l.p_right.x
  let minX := min l.p_left.x l.p_right.x
  (List.range' minX (maxX - minX + 1)).map (fun i => .px i l.p_left.y)

/-- One plotted point of the Bresenham core, undoing the coordinate
transformations exactly as the source's four-way branch does. -/
def bresenhamPoint (isYInv isXYInv : Bool) (x y : ℤ) : DevEvent :=
  if isYInv && isXYInv then .px (asU16 y) (asU16 (-x))
  else if isYInv then .px (asU16 x) (asU16 (-y))
  else if isXYInv then .px (asU16 y) (asU16 x)
  else .px (asU16 x) (asU16 y)

/-- The `while (x < endX)` loop of `__pvt_BresenhamMethod_line`.  `x`
increases by one each pass, so `(endX - x).toNat` iterations of fuel are
exact; the guard makes any surplus fuel a no-op. -/
def bresLoop (isYInv isXYInv : Bool) (incrE incrNE endX : ℤ) :
    ℕ → ℤ → ℤ → ℤ → List DevEvent
  | 0, _, _, _ => []
  | fuel + 1, x, y, dec =>
    if x < endX then
      let x' := x + 1
      if dec < 0 then
        bresenhamPoint isYInv isXYInv x' y ::
          bresLoop isYInv isXYInv incrE incrNE endX fuel x' y (wrap16 (dec + incrE))
      else
        bresenhamPoint isYInv isXYInv x' (y + 1) ::
          bresLoop isYInv isXYInv incrE incrNE endX fuel x' (y + 1) (wrap16 (dec + incrNE))
    else []

/-- `__pvt_BresenhamMethod_line` from `line.c`: normalize by endpoint
swap, y-inversion and axis swap (the xor-swap helper is an exact swap),
then run the integer Bresenham loop. -/
def bresenhamMethodLineTrace (l : GLine) : List DevEvent :=
  let startX := asInt16 l.p_left.x
  let startY := asInt16 l.p_left.y
  let endX := asInt16 l.p_right.x
  let endY := asInt16 l.p_right.y
  let s1 := if startX > endX then (endX, endY, startX, startY)
            else (startX, startY, endX, endY)
  let isYInv := s1.2.1 > s1.2.2.2
  let s2 := if isYInv then (s1.1, wrap16 (-s1.2.1), s1.2.2.1, wrap16 (-s1.2.2.2))
            else s1
  let isXYInv := s2.2.2.2 - s2.2.1 > s2.2.2.1 - s2.1
  let s3 := if isXYInv then (s2.2.1, s2.1, s2.2.2.2, s2.2.2.1) else s2
  let dx := wrap16 (s3.2.2.1 - s3.1)
  let dy := wrap16 (s3.2.2.2 - s3.2.1)
  let incrE := wrap16 (2 * dy)
  let incrNE := wrap16 (2 * (dy - dx))
  let dec := wrap16 (2 * dy - dx)
  bresenhamPoint isYInv isXYInv s3.1 s3.2.1 ::
    bresLoop isYInv isXYInv incrE incrNE s3.2.2.1
      (s3.2.2.1 - s3.1).toNat s3.1 s3.2.1 dec

/-- `CFBDGraphic_DrawLine` from `line.c`: `clearBounds` (no device call),
the vertical/horizontal fast paths (not exclusive of the Bresenham core),
the Bresenham core, and — in immediate mode — a bounding-box
`update_area`. -/
def CFBDGraphic_DrawLine_trace (l : GLine) (immediate : Bool) : List DevEvent :=
  clearBounds_trace l ++
  (if l.p_left.x = l.p_right.x then verticalLineTrace l else []) ++
  (if l.p_left.y = l.p_right.y then horizontalLineTrace l else []) ++
  bresenhamMethodLineTrace l ++
  (if immediate then
    [.updateA (clamp_u16_from_i32 (min (l.p_left.x : ℤ) (l.p_right.x : ℤ)))
       (clamp_u16_from_i32 (min (l.p_left.y : ℤ) (l.p_right.y : ℤ)))
       (clamp_u16_from_i32 (max (l.p_left.x : ℤ) (l.p_right.x : ℤ) -
          min (l.p_left.x : ℤ) (l.p_right.x : ℤ) + 1))
       (clamp_u16_from_i32 (max (l.p_left.y : ℤ) (l.p_right.y : ℤ) -
          min (l.p_left.y : ℤ) (l.p_right.y : ℤ) + 1))]
   else [])

/-!
`rect_clip_line` from `lib/graphic/base/rectangle.c`: Cohen–Sutherland
clipping with outcodes `CS_LEFT = 1`, `CS_RIGHT = 2`, `CS_BOTTOM = 4`,
`CS_TOP = 8`.  The intersection coordinate is computed in the source as
`(int32_t)((double)(x1-x0) * (bound - y0) / (double)(y1-y0))`; the
products involved stay below 2^35, hence are exact in `double`, and the
quotient of integers of this size truncates to the same integer as exact
rational truncation (a non-integer rational with denominator below 2^17
is at least 2^-17 from any integer, while the division's rounding error
is below 2^-35), so the cast is embedded exactly as `Int.tdiv`, C's
truncating division.  The loop is embedded with fuel; the claim to settle
is precisely that a fixed small fuel (5) always suffices. -/

/-- `cs_compute_code` from `rectangle.c`: normalize, then OR together the
four half-plane outcode bits. -/
def cs_compute_code (r : GRect) (x y : ℤ) : ℕ :=
  let n := rect_normalize r
  (if x < (n.tl.x : ℤ) then 1 else if x > (n.br.x : ℤ) then 2 else 0) |||
  (if y < (n.tl.y : ℤ) then 8 else if y > (n.br.y : ℤ) then 4 else 0)

/-- The `while (1)` loop of `rect_clip_line`, with explicit fuel; `none`
means the fuel ran out before the accept/reject branch was reached. -/
def rect_clip_line_loop (n : GRect) : ℕ → ℤ → ℤ → ℤ → ℤ → ℕ → ℕ →
    Option (Bool × (ℤ × ℤ) × (ℤ × ℤ))
  | 0, _, _, _, _, _, _ => none
  | fuel + 1, x0, y0, x1, y1, code0, code1 =>
    if code0 ||| code1 = 0 then some (true, (x0, y0), (x1, y1))
    else if code0 &&& code1 ≠ 0 then some (false, (x0, y0), (x1, y1))
    else
      let outcode := if code0 ≠ 0 then code0 else code1
      let nxy : ℤ × ℤ :=
        if outcode &&& 8 ≠ 0 then
          (x0 + Int.tdiv ((x1 - x0) * ((n.tl.y : ℤ) - y0)) (y1 - y0), (n.tl.y : ℤ))
        else if outcode &&& 4 ≠ 0 then
          (x0 + Int.tdiv ((x1 - x0) * ((n.br.y : ℤ) - y0)) (y1 - y0), (n.br.y : ℤ))
        else if outcode &&& 2 ≠ 0 then
          ((n.br.x : ℤ), y0 + Int.tdiv ((y1 - y0) * ((n.br.x : ℤ) - x0)) (x1 - x0))
        else if outcode &&& 1 ≠ 0 then
          ((n.tl.x : ℤ), y0 + Int.tdiv ((y1 - y0) * ((n.tl.x : ℤ) - x0)) (x1 - x0))
        else (0, 0)
      if outcode = code0 then
        rect_clip_line_loop n fuel nxy.1 nxy.2 x1 y1
          (cs_compute_code n nxy.1 nxy.2) code1
      else
        rect_clip_line_loop n fuel x0 y0 nxy.1 nxy.2
          code0 (cs_compute_code n nxy.1 nxy.2)

/-- `rect_clip_line` from `rectangle.c`, with the loop given `fuel`
iterations: on accept the clipped endpoints are stored back (clamped to
`uint16`), on reject the endpoints are untouched. -/
def rect_clip_line (fuel : ℕ) (r : GRect) (p0 p1 : GPoint) :
    Option (Bool × GPoint × GPoint) :=
  let n := rect_normalize r
  match rect_clip_line_loop n fuel p0.x p0.y p1.x p1.y
      (cs_compute_code n (p0.x : ℤ) (p0.y : ℤ))
      (cs_compute_code n (p1.x : ℤ) (p1.y : ℤ)) with
  | none => none
  | some (accept, (a0, b0), (a1, b1)) =>
    if accept then
      some (true, ⟨clamp_u16_from_i32 a0, clamp_u16_from_i32 b0⟩,
                  ⟨clamp_u16_from_i32 a1, clamp_u16_from_i32 b1⟩)
    else some (false, p0, p1)

/-- The number of outcode bits set (outcodes use only bits 0–3). -/
def pop4 (c : ℕ) : ℕ :=
  (c &&& 1) + ((c >>> 1) &&& 1) + ((c >>> 2) &&& 1) + ((c >>> 3) &&& 1)

/-- C8: `rect_normalize` establishes `tl.x ≤ br.x ∧ tl.y ≤ br.y` for every
input rectangle, and it is idempotent:
`rect_normalize (rect_normalize r) = rect_normalize r`. -/
theorem rect_normalize_spec (r : GRect) :
    (rect_normalize r).tl.x ≤ (rect_normalize r).br.x ∧
    (rect_normalize r).tl.y ≤ (rect_normalize r).br.y ∧
    rect_normalize (rect_normalize r) = rect_normalize r := by
  unfold rect_normalize
  dsimp only
  refine ⟨?_, ?_, ?_⟩
  · split_ifs <;> omega
  · split_ifs <;> omega
  · split_ifs <;>
      (first | rfl |
        (simp only [GRect.mk.injEq, GPoint.mk.injEq, true_and, and_true]; omega))

/-- On in-range values the clamp is the identity. -/
theorem clamp_u16_eq_toNat {v : ℤ} (h0 : 0 ≤ v) (h1 : v ≤ 65535) :
    clamp_u16_from_i32 v = v.toNat := by
  unfold clamp_u16_from_i32
  split_ifs <;> omega

/-- C9 counterexample: the claim quantifies over *every* `x, y` and `w, h > 0`,
but `rect_from_xywh` clamps negative coordinates to zero, so at
`x = -1, y = 0, w = 2, h = 1` the resulting width is `1`, not `2`. -/
theorem rect_from_xywh_width_counterexample :
    (0 : ℤ) < 2 ∧ (0 : ℤ) < 1 ∧
    ¬(rect_width (rect_from_xywh (-1) 0 2 1) = 2 ∧
      rect_height (rect_from_xywh (-1) 0 2 1) = 1) := by
  refine ⟨by norm_num, by norm_num, ?_⟩
  decide

/-- C9 (amended): when the requested rectangle lies inside the
representable `uint16` range — `0 ≤ x`, `0 ≤ y`, `x + w ≤ 65535` and
`y + h ≤ 65535` — `rect_from_xywh x y w h` has width `w` and height `h`
for every `w, h > 0`. -/
theorem rect_from_xywh_width_height (x y w h : ℤ)
    (hw : 0 < w) (hh : 0 < h) (hx : 0 ≤ x) (hy : 0 ≤ y)
    (hxw : x + w ≤ 65535) (hyh : y + h ≤ 65535) :
    rect_width (rect_from_xywh x y w h) = w.toNat ∧
    rect_height (rect_from_xywh x y w h) = h.toNat := by
  unfold rect_width rect_height rect_from_xywh
  rw [clamp_u16_eq_toNat hx (by omega), clamp_u16_eq_toNat hy (by omega),
      clamp_u16_eq_toNat (by omega : (0:ℤ) ≤ x + w) hxw,
      clamp_u16_eq_toNat (by omega : (0:ℤ) ≤ y + h) hyh]
  unfold rect_normalize
  dsimp only
  split_ifs <;> omega

/-- C9 witness: the amended theorem applied at `x = 50, y = 75, w = 100, h = 50`. -/
theorem rect_from_xywh_width_height_witness :
    rect_width (rect_from_xywh 50 75 100 50) = (100 : ℤ).toNat ∧
    rect_height (rect_from_xywh 50 75 100 50) = (50 : ℤ).toNat :=
  rect_from_xywh_width_height 50 75 100 50 (by norm_num) (by norm_num)
    (by norm_num) (by norm_num) (by norm_num) (by norm_num)

/-- C7 counterexample: binding with the unrecognized tag `3` does *not*
leave every field of the handle as it was — the device-type tag field
(initially `0`) and the internal backend handle field (initially `5`) are
overwritten before the tag is examined. -/
theorem bindDevice_unknown_tag_counterexample :
    (CFBDGraphic_BindDevice ⟨none, 0, 5, false⟩ 3 7 false).device_type ≠
      (⟨none, 0, 5, false⟩ : GraphicDevice).device_type ∧
    (CFBDGraphic_BindDevice ⟨none, 0, 5, false⟩ 3 7 false).internal_handle ≠
      (⟨none, 0, 5, false⟩ : GraphicDevice).internal_handle := by
  decide

/-- C7 (amended): for every device handle and every unrecognized
device-type tag, `CFBDGraphic_BindDevice` leaves the operation-table
pointer and the immediate-draw flag unchanged, but overwrites the
device-type tag and the internal backend handle with its arguments, and
returns without signaling failure (the function has no failure channel). -/
theorem bindDevice_unknown_tag (device : GraphicDevice)
    (tag handle : ℕ) (oledOpsNull : Bool) (htag : tag ≠ 0) :
    CFBDGraphic_BindDevice device tag handle oledOpsNull =
      { device with internal_handle := handle, device_type := tag } := by
  unfold CFBDGraphic_BindDevice
  match tag, htag with
  | n + 1, _ => rfl

/-- C7 witness: the amended theorem applied at tag `3`, handle `7`. -/
theorem bindDevice_unknown_tag_witness :
    CFBDGraphic_BindDevice ⟨none, 0, 5, false⟩ 3 7 false =
      { (⟨none, 0, 5, false⟩ : GraphicDevice) with
          internal_handle := 7, device_type := 3 } :=
  bindDevice_unknown_tag ⟨none, 0, 5, false⟩ 3 7 false (by decide)

/-- Bits at or above position 8 of a byte value are clear. -/
theorem byte_testBit_high (b j : ℕ) (hb : b < 256) (hj : 8 ≤ j) :
    b.testBit j = false := by
  refine Nat.testBit_lt_two_pow (lt_of_lt_of_le hb ?_)
  calc (256 : ℕ) = 2 ^ 8 := by norm_num
  _ ≤ 2 ^ j := Nat.pow_le_pow_right (by norm_num) hj

/-- Setting bit `k` of a byte via `|=` touches no other bit. -/
theorem byte_or_bit (b k : ℕ) (hb : b < 256) (hk : k < 8) :
    (b ||| 1 <<< k) % 256 = b ||| 1 <<< k ∧
    (b ||| 1 <<< k).testBit k = true ∧
    ∀ j, j ≠ k → (b ||| 1 <<< k).testBit j = b.testBit j := by
  have hsh : 1 <<< k = 2 ^ k := by rw [Nat.shiftLeft_eq, one_mul]
  have hlt : b ||| 1 <<< k < 256 := by
    rw [hsh]
    have h1 : (2 : ℕ) ^ k < 2 ^ 8 := Nat.pow_lt_pow_right (by norm_num) hk
    exact Nat.or_lt_two_pow (n := 8) hb h1
  refine ⟨Nat.mod_eq_of_lt hlt, ?_, ?_⟩
  · rw [hsh, Nat.testBit_or, Nat.testBit_two_pow]
    simp
  · intro j hj
    rw [hsh, Nat.testBit_or, Nat.testBit_two_pow]
    simp [Ne.symm hj]

/-- Clearing bit `k` of a byte via `&= ~(1 << k)` (with the `uint8_t`
store) touches no other bit of a byte value. -/
theorem byte_and_clear_bit (b k : ℕ) (hb : b < 256) (hk : k < 8) :
    (b &&& (255 ^^^ 1 <<< k)).testBit k = false ∧
    ∀ j, j ≠ k → (b &&& (255 ^^^ 1 <<< k)).testBit j = b.testBit j := by
  have hsh : 1 <<< k = 2 ^ k := by rw [Nat.shiftLeft_eq, one_mul]
  have h255 : (255 : ℕ) = 2 ^ 8 - 1 := by norm_num
  constructor
  · rw [Nat.testBit_and, hsh, Nat.testBit_xor, h255,
        Nat.testBit_two_pow_sub_one, Nat.testBit_two_pow]
    simp [hk]
  · intro j hj
    rw [Nat.testBit_and, hsh, Nat.testBit_xor, h255,
        Nat.testBit_two_pow_sub_one, Nat.testBit_two_pow]
    by_cases hj8 : j < 8
    · simp [hj8, Ne.symm hj]
    · have hbj : b.testBit j = false := byte_testBit_high b j hb (by omega)
      simp [hbj, hj8, show k ≠ j by omega]

/-- Writing the high nibble of a byte preserves the low nibble and stores
the grey value in the high nibble. -/
theorem byte_high_nibble_write (b g : ℕ) (_hb : b < 256) (hg : g < 16) :
    ((b &&& 15) ||| (g <<< 4)) % 256 = (b &&& 15) ||| (g <<< 4) ∧
    ((b &&& 15) ||| (g <<< 4)) &&& 15 = b &&& 15 ∧
    ((b &&& 15) ||| (g <<< 4)) >>> 4 = g := by
  have hsh : g <<< 4 = g * 2 ^ 4 := Nat.shiftLeft_eq g 4
  have hlo : b &&& 15 < 256 := lt_of_le_of_lt Nat.and_le_right (by norm_num)
  have hhi : g <<< 4 < 256 := by rw [hsh]; omega
  have h15 : (15 : ℕ) = 2 ^ 4 - 1 := by norm_num
  have hlt : (b &&& 15) ||| (g <<< 4) < 256 := Nat.or_lt_two_pow (n := 8) hlo hhi
  refine ⟨Nat.mod_eq_of_lt hlt, ?_, ?_⟩
  · apply Nat.eq_of_testBit_eq
    intro i
    rw [Nat.testBit_and, Nat.testBit_or, Nat.testBit_and, Nat.testBit_shiftLeft,
        h15, Nat.testBit_two_pow_sub_one]
    by_cases hi : i < 4
    · simp [hi, show ¬ i ≥ 4 by omega]
    · simp [hi]
  · apply Nat.eq_of_testBit_eq
    intro i
    rw [Nat.testBit_shiftRight, Nat.testBit_or, Nat.testBit_and,
        Nat.testBit_shiftLeft, h15, Nat.testBit_two_pow_sub_one]
    simp [show ¬ (4 + i < 4) by omega, show 4 + i ≥ 4 by omega,
          show 4 + i - 4 = i by omega]

/-- Writing the low nibble of a byte preserves the high nibble and stores
the grey value in the low nibble. -/
theorem byte_low_nibble_write (b g : ℕ) (hb : b < 256) (hg : g < 16) :
    ((b &&& 240) ||| g) % 256 = (b &&& 240) ||| g ∧
    ((b &&& 240) ||| g) >>> 4 = b >>> 4 ∧
    ((b &&& 240) ||| g) &&& 15 = g := by
  have h240 : (240 : ℕ) = 15 <<< 4 := by decide
  have h15 : (15 : ℕ) = 2 ^ 4 - 1 := by norm_num
  have hhi : b &&& 240 < 256 := lt_of_le_of_lt Nat.and_le_right (by norm_num)
  have hlt : (b &&& 240) ||| g < 256 := Nat.or_lt_two_pow (n := 8) hhi (by omega)
  have hgbit : ∀ j, 4 ≤ j → g.testBit j = false := by
    intro j hj
    refine Nat.testBit_lt_two_pow (lt_of_lt_of_le hg ?_)
    calc (16 : ℕ) = 2 ^ 4 := by norm_num
    _ ≤ 2 ^ j := Nat.pow_le_pow_right (by norm_num) hj
  refine ⟨Nat.mod_eq_of_lt hlt, ?_, ?_⟩
  · apply Nat.eq_of_testBit_eq
    intro i
    rw [Nat.testBit_shiftRight, Nat.testBit_shiftRight, Nat.testBit_or,
        Nat.testBit_and, h240, Nat.testBit_shiftLeft, h15,
        Nat.testBit_two_pow_sub_one, hgbit (4 + i) (by omega)]
    by_cases hi : i < 4
    · simp [show 4 + i ≥ 4 by omega, show 4 + i - 4 = i by omega, hi]
    · have hb4 : b.testBit (4 + i) = false := byte_testBit_high b (4 + i) hb (by omega)
      simp [hb4]
  · apply Nat.eq_of_testBit_eq
    intro i
    rw [Nat.testBit_and, Nat.testBit_or, Nat.testBit_and, h240,
        Nat.testBit_shiftLeft, h15, Nat.testBit_two_pow_sub_one,
        Nat.testBit_two_pow_sub_one]
    by_cases hi : i < 4
    · simp [hi, show ¬ i ≥ 4 by omega]
    · simp [hi, hgbit i (by omega)]

/-- Reading the cell just written. -/
theorem cacheWrite_self (c : Cache) (p q v : ℕ) : cacheWrite c p q v p q = v := by
  simp [cacheWrite]

/-- Reading any other cell. -/
theorem cacheWrite_other (c : Cache) (p q v p' q' : ℕ) (h : ¬(p' = p ∧ q' = q)) :
    cacheWrite c p q v p' q' = c p' q' := by
  simp only [cacheWrite, if_neg h]

/-- `setPixel130` inside the logical bounds is one byte-write. -/
theorem setPixel130_eq (c : Cache) (x y : ℕ) (hx : x < 128) (hy : y < 64) :
    (setPixel130 c x y).1 =
      cacheWrite c (y / 8) x ((c (y / 8) x ||| (1 <<< (y % 8))) % 256) := by
  unfold setPixel130 LOGIC_WIDTH_130X LOGIC_HEIGHT_130X
  rw [if_pos ⟨hx, hy⟩]

/-- `oled_helper_clear_area130` on a 1×1 area inside the bounds is one
byte-write. -/
theorem clear_area130_single_eq (c : Cache) (x y : ℕ) (hx : x < 128) (hy : y < 64) :
    (oled_helper_clear_area130 c x y 1 1).1 =
      cacheWrite c (y / 8) x ((c (y / 8) x) &&& (255 ^^^ (1 <<< (y % 8)))) := by
  unfold oled_helper_clear_area130 LOGIC_WIDTH_130X LOGIC_HEIGHT_130X
  rw [if_neg (by omega), if_neg (by omega)]
  have hw : (if x + 1 > 128 then 128 - x else 1) = 1 := by rw [if_neg (by omega)]
  have hh : (if y + 1 > 64 then 64 - y else 1) = 1 := by rw [if_neg (by omega)]
  have hr : List.range 1 = [0] := rfl
  simp only [hw, hh, hr, List.foldl_cons, List.foldl_nil, Nat.add_zero]

/-- C1: for every in-range coordinate pair, `setPixel` modifies exactly the
cache bits encoding that pixel.  1bpp: exactly bit `y % 8` of byte
`(y / 8, x)` is set and no other bit of any byte changes, and the 1×1
`clear_area` at `(x, y)` clears exactly that bit.  4bpp: at even `x` only
the high nibble of byte `(y, x / 2)` is written, at odd `x` only the low
nibble, the opposite nibble and all other bytes being unchanged. -/
theorem setPixel_modifies_exactly_its_bits
    (c : Cache) (x y : ℕ) (hx : x < 128) (hy : y < 64)
    (hb : c (y / 8) x < 256)
    (c' : Cache) (hb' : c' (y / 8) x < 256)
    (grey : ℕ) (hg : grey < 16)
    (c2 : Cache) (x2 y2 : ℕ) (hx2 : x2 < 128) (hy2 : y2 < 96)
    (hb2 : c2 y2 (x2 / 2) < 256) :
    (((setPixel130 c x y).1 (y / 8) x).testBit (y % 8) = true) ∧
    (∀ j, j ≠ y % 8 →
      ((setPixel130 c x y).1 (y / 8) x).testBit j = (c (y / 8) x).testBit j) ∧
    (∀ p q, ¬(p = y / 8 ∧ q = x) → (setPixel130 c x y).1 p q = c p q) ∧
    (((oled_helper_clear_area130 c' x y 1 1).1 (y / 8) x).testBit (y % 8) = false) ∧
    (∀ j, j ≠ y % 8 →
      ((oled_helper_clear_area130 c' x y 1 1).1 (y / 8) x).testBit j =
        (c' (y / 8) x).testBit j) ∧
    (∀ p q, ¬(p = y / 8 ∧ q = x) →
      (oled_helper_clear_area130 c' x y 1 1).1 p q = c' p q) ∧
    (x2 % 2 = 0 →
      ((setPixel132 grey c2 x2 y2).1 y2 (x2 / 2)) &&& 15 = (c2 y2 (x2 / 2)) &&& 15 ∧
      ((setPixel132 grey c2 x2 y2).1 y2 (x2 / 2)) >>> 4 = grey) ∧
    (x2 % 2 = 1 →
      ((setPixel132 grey c2 x2 y2).1 y2 (x2 / 2)) >>> 4 = (c2 y2 (x2 / 2)) >>> 4 ∧
      ((setPixel132 grey c2 x2 y2).1 y2 (x2 / 2)) &&& 15 = grey) ∧
    (∀ p q, ¬(p = y2 ∧ q = x2 / 2) → (setPixel132 grey c2 x2 y2).1 p q = c2 p q) := by
  have hk : y % 8 < 8 := Nat.mod_lt _ (by norm_num)
  obtain ⟨hm, hsetk, hsetj⟩ := byte_or_bit (c (y / 8) x) (y % 8) hb hk
  obtain ⟨hclrk, hclrj⟩ := byte_and_clear_bit (c' (y / 8) x) (y % 8) hb' hk
  have e1 := setPixel130_eq c x y hx hy
  have e2 := clear_area130_single_eq c' x y hx hy
  have e3 : (setPixel132 grey c2 x2 y2).1 =
      (if x2 % 2 = 0 then
        cacheWrite c2 y2 (x2 / 2) (((c2 y2 (x2 / 2) &&& 0x0F) ||| (grey <<< 4)) % 256)
      else
        cacheWrite c2 y2 (x2 / 2) (((c2 y2 (x2 / 2) &&& 0xF0) ||| grey) % 256)) := by
    unfold setPixel132 LOGIC_WIDTH_132X LOGIC_HEIGHT_132X
    rw [if_neg (by omega)]
    split_ifs <;> rfl
  obtain ⟨hmh, hlow_pres, hhigh_val⟩ :=
    byte_high_nibble_write (c2 y2 (x2 / 2)) grey hb2 hg
  obtain ⟨hml, hhigh_pres, hlow_val⟩ :=
    byte_low_nibble_write (c2 y2 (x2 / 2)) grey hb2 hg
  refine ⟨?_, ?_, ?_, ?_, ?_, ?_, ?_, ?_, ?_⟩
  · rw [e1, cacheWrite_self, hm, hsetk]
  · intro j hj
    rw [e1, cacheWrite_self, hm, hsetj j hj]
  · intro p q hpq
    rw [e1, cacheWrite_other _ _ _ _ _ _ hpq]
  · rw [e2, cacheWrite_self, hclrk]
  · intro j hj
    rw [e2, cacheWrite_self, hclrj j hj]
  · intro p q hpq
    rw [e2, cacheWrite_other _ _ _ _ _ _ hpq]
  · intro heven
    rw [e3, if_pos heven, cacheWrite_self, hmh]
    exact ⟨hlow_pres, hhigh_val⟩
  · intro hodd
    rw [e3, if_neg (by omega), cacheWrite_self, hml]
    exact ⟨hhigh_pres, hlow_val⟩
  · intro p q hpq
    rw [e3]
    split_ifs <;> rw [cacheWrite_other _ _ _ _ _ _ hpq]

/-- C1 witness: the theorem applied at concrete pixels — 1bpp pixel
`(5, 13)` on the zero cache and an all-`0xFF` cache, 4bpp pixels `(4, 10)`
(even) and `(7, 10)` (odd) with grey level `9` on an all-`0x5A` cache. -/
theorem setPixel_modifies_exactly_its_bits_witness :
    ((setPixel130 zeroCache 5 13).1 (13 / 8) 5).testBit (13 % 8) = true ∧
    (setPixel130 zeroCache 5 13).1 0 0 = zeroCache 0 0 ∧
    ((oled_helper_clear_area130 (fun _ _ => 255) 5 13 1 1).1 (13 / 8) 5).testBit
      (13 % 8) = false ∧
    (((setPixel132 9 (fun _ _ => 90) 4 10).1 10 (4 / 2)) &&& 15 =
      ((fun (_ _ : ℕ) => 90) 10 (4 / 2)) &&& 15 ∧
     ((setPixel132 9 (fun _ _ => 90) 4 10).1 10 (4 / 2)) >>> 4 = 9) ∧
    (((setPixel132 9 (fun _ _ => 90) 7 10).1 10 (7 / 2)) >>> 4 =
      ((fun (_ _ : ℕ) => 90) 10 (7 / 2)) >>> 4 ∧
     ((setPixel132 9 (fun _ _ => 90) 7 10).1 10 (7 / 2)) &&& 15 = 9) := by
  have A := setPixel_modifies_exactly_its_bits zeroCache 5 13 (by decide) (by decide)
    (by decide) (fun _ _ => 255) (by decide) 9 (by decide) (fun _ _ => 90) 4 10
    (by decide) (by decide) (by decide)
  have B := setPixel_modifies_exactly_its_bits zeroCache 5 13 (by decide) (by decide)
    (by decide) (fun _ _ => 255) (by decide) 9 (by decide) (fun _ _ => 90) 7 10
    (by decide) (by decide) (by decide)
  exact ⟨A.1, A.2.2.1 0 0 (by decide), A.2.2.2.1,
         A.2.2.2.2.2.2.1 (by decide), B.2.2.2.2.2.2.2.1 (by decide)⟩

/-- C's truncating division on cast naturals is natural division. -/
theorem tdiv_coe_eight (a : ℕ) : Int.tdiv (a : ℤ) 8 = ((a / 8 : ℕ) : ℤ) := rfl

/-- C's truncating division on cast naturals is natural division. -/
theorem tdiv_coe_two (a : ℕ) : Int.tdiv (a : ℤ) 2 = ((a / 2 : ℕ) : ℤ) := rfl

/-- C4 counterexample: the claim quantifies over *every* rectangle, but at
the degenerate request `(0, 0, 1, 0)` the 1bpp `update_area` still
transmits byte (page 0, column 0) — `(y + height - 1) / 8 + 1` evaluates
to `1` — although the requested row range `[0, 0)` is empty. -/
theorem update_area_empty_rect_counterexample :
    ¬ (∀ pc ∈ oled_helper_update_area130_sends 0 0 1 0, sentOK130 0 0 1 0 pc) := by
  intro hall
  have h0 : ((0 : ℕ), (0 : ℕ)) ∈ oled_helper_update_area130_sends 0 0 1 0 := by decide
  have := (hall _ h0).2.2.1
  omega

/-- C4 (amended): for every request with `w ≥ 1` and `h ≥ 1` whose start
point is inside the logical bounds, `update_area` transmits only cache
bytes inside `[x, x+w) × [y, y+h)` intersected with the logical
resolution — an overlong extent is truncated, not rejected; in the 1bpp
encoder a byte counts as inside when its 8-row page stripe meets the
requested rows, in the 4bpp encoder the byte column `x / 2 + t` counts as
inside when one of its two pixel columns is requested. -/
theorem update_area_sends_within_rect
    (x y w h : ℕ) (hx : x < 128) (hy : y < 64) (hw : 1 ≤ w) (hh : 1 ≤ h)
    (x2 y2 w2 h2 : ℕ) (hx2 : x2 < 128) (hy2 : y2 < 96) (hw2 : 1 ≤ w2) (hh2 : 1 ≤ h2) :
    (∀ pc ∈ oled_helper_update_area130_sends x y w h, sentOK130 x y w h pc) ∧
    (∀ rc ∈ oled_helper_update_area132_sends x2 y2 w2 h2, sentOK132 x2 y2 w2 h2 rc) := by
  constructor
  · intro pc hpc
    unfold oled_helper_update_area130_sends LOGIC_WIDTH_130X LOGIC_HEIGHT_130X at hpc
    rw [if_neg (by omega), if_neg (by omega)] at hpc
    simp only [List.mem_flatMap, List.mem_range', List.mem_map, List.mem_range, one_mul] at hpc
    obtain ⟨i, ⟨di, hdi, hieq⟩, t, ht, hpceq⟩ := hpc
    set w' := if x + w > 128 then 128 - x else w with hw'
    set h' := if y + h > 64 then 64 - y else h with hh'
    have hw'le : w' ≤ w ∧ x + w' ≤ 128 ∧ 1 ≤ w' := by
      rw [hw']; split_ifs <;> omega
    have hh'le : h' ≤ h ∧ y + h' ≤ 64 ∧ 1 ≤ h' := by
      rw [hh']; split_ifs <;> omega
    have hcast : ((y : ℤ) + h' - 1) = ((y + h' - 1 : ℕ) : ℤ) := by omega
    have htd : (Int.tdiv ((y : ℤ) + h' - 1) 8 + 1).toNat = (y + h' - 1) / 8 + 1 := by
      rw [hcast]
      rw [tdiv_coe_eight]
      omega
    rw [htd] at hdi
    subst hieq hpceq
    unfold sentOK130
    dsimp only
    have h8 : (y / 8 + di) * 8 ≤ y + h' - 1 := by omega
    have h9 : y < (y / 8 + di + 1) * 8 := by omega
    refine ⟨⟨by omega, by omega, by omega⟩, ⟨h9, by omega, by omega⟩⟩
  · intro rc hrc
    unfold oled_helper_update_area132_sends LOGIC_WIDTH_132X LOGIC_HEIGHT_132X at hrc
    rw [if_neg (by omega), if_neg (by omega)] at hrc
    simp only [List.mem_flatMap, List.mem_range', List.mem_map, one_mul] at hrc
    obtain ⟨row, ⟨dr, hdr, hreq⟩, ⟨c, ⟨dc, hdc, hceq⟩, hrceq⟩⟩ := hrc
    set w' := if x2 + w2 > 128 then 128 - x2 else w2 with hw'
    set h' := if y2 + h2 > 96 then 96 - y2 else h2 with hh'
    have hw'le : w' ≤ w2 ∧ x2 + w' ≤ 128 ∧ 1 ≤ w' := by
      rw [hw']; split_ifs <;> omega
    have hh'le : h' ≤ h2 ∧ y2 + h' ≤ 96 ∧ 1 ≤ h' := by
      rw [hh']; split_ifs <;> omega
    have hcast : ((x2 : ℤ) + w' - 1) = ((x2 + w' - 1 : ℕ) : ℤ) := by omega
    have htd : (Int.tdiv ((x2 : ℤ) + w' - 1) 2 - (x2 / 2 : ℕ) + 1).toNat =
        (x2 + w' - 1) / 2 - x2 / 2 + 1 := by
      rw [hcast]
      rw [tdiv_coe_two]
      have : x2 / 2 ≤ (x2 + w' - 1) / 2 := Nat.div_le_div_right (by omega)
      omega
    rw [htd] at hdc
    subst hreq hceq hrceq
    unfold sentOK132
    dsimp only
    have hcu2 : (x2 / 2 + dc) * 2 ≤ x2 + w' - 1 := by omega
    have hxle : x2 ≤ 2 * (x2 / 2 + dc) + 1 := by omega
    refine ⟨⟨by omega, by omega, by omega⟩, ⟨hxle, by omega, by omega⟩⟩

/-- C4 witness: the amended theorem applied to the truncated requests
`(120, 60, 20, 10)` (1bpp) and `(5, 90, 200, 20)` (4bpp), at the
transmitted bytes (page 7, column 125) and (row 95, byte-column 10). -/
theorem update_area_sends_within_rect_witness :
    sentOK130 120 60 20 10 (7, 125) ∧ sentOK132 5 90 200 20 (95, 10) :=
  ⟨(update_area_sends_within_rect 120 60 20 10 (by decide) (by decide) (by decide)
      (by decide) 5 90 200 20 (by decide) (by decide) (by decide) (by decide)).1
      (7, 125) (by decide),
   (update_area_sends_within_rect 120 60 20 10 (by decide) (by decide) (by decide)
      (by decide) 5 90 200 20 (by decide) (by decide) (by decide) (by decide)).2
      (95, 10) (by decide)⟩

/-- C3: at `setArea(x = 127, y = 0, w = 2, h = 8)` the 1bpp encoder writes
cache column index 128 = `CACHED_WIDTH` — one past the last column of
`OLED_GRAM` — because the column guard uses `>` instead of `>=`: for
`i = 1`, `x + i = 128 > 128` is false, so the loop body runs with an
out-of-range index. -/
theorem draw_area130_out_of_bounds_write :
    ∃ pc ∈ oled_helper_draw_area130_writes 127 0 2 8,
      ¬ (pc.1 < CACHED_HEIGHT_130X ∧ pc.2 < CACHED_WIDTH_130X) := by
  decide

/-- A fold preserves any invariant its step preserves. -/
theorem foldl_preserve {α : Type} {P : Cache → Prop} {f : Cache → α → Cache}
    (hf : ∀ c a, P c → P (f c a)) :
    ∀ (l : List α) (c : Cache), P c → P (List.foldl f c l) := by
  intro l
  induction l with
  | nil => intro c h; exact h
  | cons a t ih => intro c h; exact ih _ (hf c a h)

/-- `clear_area` of the zero cache is the zero cache. -/
theorem clear_area130_zero (x y w h p q : ℕ) :
    (oled_helper_clear_area130 zeroCache x y w h).1 p q = 0 := by
  have key : ∀ (w' h' : ℕ) (c : Cache), (∀ p' q', c p' q' = 0) → ∀ p' q',
      (List.foldl
        (fun cc di =>
          List.foldl
            (fun cc dj =>
              cacheWrite cc ((y + di) / 8) (x + dj)
                ((cc ((y + di) / 8) (x + dj)) &&& (255 ^^^ (1 <<< ((y + di) % 8)))))
            cc (List.range w'))
        c (List.range h')) p' q' = 0 := by
    intro w' h' c hc
    refine foldl_preserve (P := fun c => ∀ p' q', c p' q' = 0) ?_ _ c hc
    intro c' di hc'
    refine foldl_preserve (P := fun c => ∀ p' q', c p' q' = 0) ?_ _ c' hc'
    intro c'' dj hc'' p' q'
    unfold cacheWrite
    split_ifs with hpq
    · rw [hc'']
      exact Nat.zero_and _
    · exact hc'' p' q'
  unfold oled_helper_clear_area130
  split_ifs
  any_goals rfl
  all_goals exact key _ _ zeroCache (fun _ _ => rfl) p q

/-- Columns not named in the processed index list are untouched by the
inner column loop. -/
theorem drawAreaInner130_untouched (x y w : ℕ) (src : ℕ → ℕ) (j : ℕ) :
    ∀ (l : List ℕ) (c : Cache) (p q : ℕ), (∀ i ∈ l, q ≠ x + i) →
      (drawAreaInner130 x y w src j l c).1 p q = c p q := by
  intro l
  induction l with
  | nil => intro c p q _; rfl
  | cons i rest ih =>
    intro c p q h
    have hq : q ≠ x + i := h i (List.mem_cons_self i rest)
    have hrest : ∀ i' ∈ rest, q ≠ x + i' := fun i' hi' => h i' (List.mem_cons_of_mem _ hi')
    unfold drawAreaInner130
    split_ifs with h1 h2 h3
    · rfl
    · rfl
    · dsimp only
      rw [ih _ p q hrest, cacheWrite_other _ _ _ _ _ _ (by tauto)]
    · dsimp only
      rw [ih _ p q hrest, cacheWrite_other _ _ _ _ _ _ (by tauto),
          cacheWrite_other _ _ _ _ _ _ (by tauto)]

/-- Value of a processed column after the inner loop (page row `j = 0`):
page `y/8` receives the OR of `src i₀ << (y % 8)`, page `y/8 + 1` — when it
exists — the OR of `src i₀ >> (8 - y % 8)`, all other pages keep their
bytes. -/
theorem drawAreaInner130_touched (x y w : ℕ) (src : ℕ → ℕ) (hy : y < 64) :
    ∀ (l : List ℕ) (c : Cache) (i₀ : ℕ), l.Nodup → i₀ ∈ l →
      (∀ i ∈ l, x + i ≤ 128) →
      ∀ p, (drawAreaInner130 x y w src 0 l c).1 p (x + i₀) =
        if p = y / 8 then
          (c (y / 8) (x + i₀) ||| (src (0 * w + i₀) <<< (y % 8))) % 256
        else if p = y / 8 + 1 ∧ y / 8 + 1 ≤ 7 then
          (c (y / 8 + 1) (x + i₀) ||| (src (0 * w + i₀) >>> (8 - y % 8))) % 256
        else c p (x + i₀) := by
  intro l
  induction l with
  | nil => intro c i₀ _ hmem; exact absurd hmem (List.not_mem_nil _)
  | cons i rest ih =>
    intro c i₀ hnd hmem hbound p
    have hxi : ¬ (x + i > CACHED_WIDTH_130X) := by
      have := hbound i (List.mem_cons_self i rest)
      unfold CACHED_WIDTH_130X
      omega
    have hret : ¬ (y / 8 + 0 > CACHED_HEIGHT_130X - 1) := by
      unfold CACHED_HEIGHT_130X
      omega
    rcases List.mem_cons.mp hmem with heq | hmemr
    · -- the head processes column x + i₀
      subst heq
      unfold drawAreaInner130
      rw [if_neg hxi, if_neg hret]
      dsimp only
      simp only [Nat.add_zero]
      have hnotin : ∀ i' ∈ rest, x + i₀ ≠ x + i' := by
        intro i' hi' habs
        have : i₀ = i' := by omega
        subst this
        exact (List.nodup_cons.mp hnd).1 hi'
      rw [drawAreaInner130_untouched x y w src 0 rest _ p (x + i₀) hnotin]
      by_cases hcarry : y / 8 + 1 > CACHED_HEIGHT_130X - 1
      · rw [if_pos hcarry]
        by_cases hp : p = y / 8
        · subst hp
          rw [cacheWrite_self, if_pos rfl]
        · rw [cacheWrite_other _ _ _ _ _ _ (by tauto), if_neg hp]
          have hnotc : ¬ (p = y / 8 + 1 ∧ y / 8 + 1 ≤ 7) := by
            unfold CACHED_HEIGHT_130X at hcarry
            omega
          rw [if_neg hnotc]
      · rw [if_neg hcarry]
        by_cases hp : p = y / 8
        · subst hp
          rw [cacheWrite_other _ _ _ _ _ _ (by omega), cacheWrite_self, if_pos rfl]
        · rw [if_neg hp]
          by_cases hp1 : p = y / 8 + 1
          · subst hp1
            rw [cacheWrite_self, cacheWrite_other _ _ _ _ _ _ (by omega),
                if_pos ⟨rfl, by unfold CACHED_HEIGHT_130X at hcarry; omega⟩]
          · rw [cacheWrite_other _ _ _ _ _ _ (by tauto),
                cacheWrite_other _ _ _ _ _ _ (by tauto),
                if_neg (by tauto)]
    · -- the head processes a different column
      have hii : i ≠ i₀ := by
        intro habs
        subst habs
        exact (List.nodup_cons.mp hnd).1 hmemr
      have hcolne : ¬ (x + i₀ = x + i) := by omega
      unfold drawAreaInner130
      rw [if_neg hxi, if_neg hret]
      dsimp only
      simp only [Nat.add_zero]
      by_cases hcarry : y / 8 + 1 > CACHED_HEIGHT_130X - 1 <;>
        [rw [if_pos hcarry]; rw [if_neg hcarry]] <;>
      · rw [ih _ i₀ (List.nodup_cons.mp hnd).2 hmemr
            (fun i' hi' => hbound i' (List.mem_cons_of_mem _ hi')) p]
        by_cases hp : p = y / 8
        · subst hp
          rw [if_pos rfl, if_pos rfl]
          congr 2
          rw [cacheWrite_other _ _ _ _ _ _ (by tauto)]
          try rw [cacheWrite_other _ _ _ _ _ _ (by tauto)]
        · rw [if_neg hp, if_neg hp]
          by_cases hp1 : p = y / 8 + 1 ∧ y / 8 + 1 ≤ 7
          · rw [if_pos hp1, if_pos hp1]
            congr 2
            rw [cacheWrite_other _ _ _ _ _ _ (by tauto)]
            try rw [cacheWrite_other _ _ _ _ _ _ (by tauto)]
          · rw [if_neg hp1, if_neg hp1]
            rw [cacheWrite_other _ _ _ _ _ _ (by tauto)]
            try rw [cacheWrite_other _ _ _ _ _ _ (by tauto)]

/-- For an 8-row blit (`h = 8`) inside the logical bounds, `draw_area` on
the zero cache reduces to a single pass of the inner column loop over page
row `j = 0` (the cleared cache is still all-zero). -/
theorem draw_area130_h8_eq (x y w : ℕ) (src : ℕ → ℕ) (hx : x < 128) (hy : y < 64) :
    (oled_helper_draw_area130 zeroCache x y w 8 src).1 =
      (drawAreaInner130 x y w src 0 (List.range w) zeroCache).1 := by
  unfold oled_helper_draw_area130 LOGIC_WIDTH_130X LOGIC_HEIGHT_130X
  rw [if_neg (by omega), if_neg (by omega)]
  dsimp only
  have hz : (oled_helper_clear_area130 zeroCache x y w 8).1 = zeroCache :=
    funext fun p => funext fun q => clear_area130_zero x y w 8 p q
  rw [hz]
  have hr : List.range ((8 - 1) / 8 + 1) = [0] := rfl
  rw [hr]
  unfold drawAreaOuter130
  dsimp only
  split_ifs <;> rfl

/-- C2: blitting an 8-row source bitmap at any destination `y` (page
aligned or not) onto the zero cache produces exactly the pixel pattern of
the same blit at `y = 0` shifted down by `y` rows; rows that would carry
past the last page are dropped, so no pixel outside the destination is
produced. -/
theorem draw_area130_cross_page_blit (src : ℕ → ℕ) (hsrc : ∀ n, src n < 256)
    (x y w : ℕ) (hx : x < 128) (hxw : x + w ≤ 128) (hy : y < 64) :
    ∀ col, col < 128 → ∀ row, row < 64 →
      getPixel130 (oled_helper_draw_area130 zeroCache x y w 8 src).1 col row =
        (if y ≤ row then
          getPixel130 (oled_helper_draw_area130 zeroCache x 0 w 8 src).1 col (row - y)
        else false) := by
  intro col hcol row hrow
  rw [draw_area130_h8_eq x y w src hx hy, draw_area130_h8_eq x 0 w src hx (by norm_num)]
  unfold getPixel130
  by_cases hc : ∃ i, i < w ∧ col = x + i
  case neg =>
    have hnot : ∀ i ∈ List.range w, col ≠ x + i := by
      intro i hi habs
      exact hc ⟨i, List.mem_range.mp hi, habs⟩
    rw [drawAreaInner130_untouched x y w src 0 (List.range w) zeroCache _ _ hnot,
        drawAreaInner130_untouched x 0 w src 0 (List.range w) zeroCache _ _ hnot]
    simp [zeroCache]
  case pos =>
    obtain ⟨i₀, hi₀w, rfl⟩ := hc
    rw [drawAreaInner130_touched x y w src hy (List.range w) zeroCache i₀
          (List.nodup_range w) (List.mem_range.mpr hi₀w)
          (fun i hi => by have := List.mem_range.mp hi; omega) (row / 8),
        drawAreaInner130_touched x 0 w src (by norm_num) (List.range w) zeroCache i₀
          (List.nodup_range w) (List.mem_range.mpr hi₀w)
          (fun i hi => by have := List.mem_range.mp hi; omega) ((row - y) / 8)]
    simp only [Nat.zero_mul, Nat.zero_add, zeroCache, Nat.zero_or, Nat.zero_div,
               Nat.zero_mod, Nat.shiftLeft_zero, Nat.sub_zero]
    have hs : src i₀ < 256 := hsrc i₀
    have hs8 : src i₀ % 256 = src i₀ := Nat.mod_eq_of_lt hs
    have hsr : src i₀ >>> 8 = 0 := by
      rw [Nat.shiftRight_eq_div_pow]
      exact Nat.div_eq_of_lt (by norm_num at hs ⊢; omega)
    have hj8 : row % 8 < 8 := Nat.mod_lt _ (by norm_num)
    by_cases hA1 : row / 8 = y / 8
    · rw [if_pos hA1]
      by_cases hk : y % 8 ≤ row % 8
      · have hyr : y ≤ row := by omega
        have hd0 : (row - y) / 8 = 0 := by omega
        have hdm : (row - y) % 8 = row % 8 - y % 8 := by omega
        rw [if_pos hyr, if_pos hd0, hdm, hs8,
            show (256 : ℕ) = 2 ^ 8 by norm_num,
            Nat.testBit_mod_two_pow, Nat.testBit_shiftLeft]
        simp [hj8, hk, ge_iff_le]
      · have hyr : ¬ y ≤ row := by omega
        rw [if_neg hyr, show (256 : ℕ) = 2 ^ 8 by norm_num,
            Nat.testBit_mod_two_pow, Nat.testBit_shiftLeft]
        simp [hk, ge_iff_le]
    · by_cases hA2 : row / 8 = y / 8 + 1 ∧ y / 8 + 1 ≤ 7
      · rw [if_neg hA1, if_pos hA2]
        have hyr : y ≤ row := by omega
        rw [if_pos hyr]
        by_cases hk : y % 8 ≤ row % 8
        · have h1 : ¬ ((row - y) / 8 = 0) := by omega
          rw [if_neg h1, if_pos (⟨by omega, by norm_num⟩ : (row - y) / 8 = 1 ∧ 1 ≤ 7),
              hsr, show (256 : ℕ) = 2 ^ 8 by norm_num,
              Nat.testBit_mod_two_pow, Nat.testBit_shiftRight]
          have hhi : (src i₀).testBit (8 - y % 8 + row % 8) = false :=
            byte_testBit_high _ _ hs (by omega)
          simp [hhi]
        · have h1 : (row - y) / 8 = 0 := by omega
          have hidx : (row - y) % 8 = 8 - y % 8 + row % 8 := by omega
          rw [if_pos h1, hidx, hs8, show (256 : ℕ) = 2 ^ 8 by norm_num,
              Nat.testBit_mod_two_pow, Nat.testBit_shiftRight]
          simp [hj8]
      · rw [if_neg hA1, if_neg hA2]
        simp only [Nat.zero_testBit]
        by_cases hyr : y ≤ row
        · rw [if_pos hyr]
          have h1 : ¬ ((row - y) / 8 = 0) := by omega
          rw [if_neg h1]
          by_cases h2 : (row - y) / 8 = 1 ∧ (1 : ℕ) ≤ 7
          · rw [if_pos h2, hsr]
            simp
          · rw [if_neg h2]
            simp
        · rw [if_neg hyr]

/-- C2 witness: the theorem applied to an 8-row glyph of bytes `0xA5`
blitted at `(10, 3)`, read back at pixel `(11, 5)`. -/
theorem draw_area130_cross_page_blit_witness :
    getPixel130 (oled_helper_draw_area130 zeroCache 10 3 3 8 (fun _ => 165)).1 11 5 =
      (if 3 ≤ 5 then
        getPixel130 (oled_helper_draw_area130 zeroCache 10 0 3 8 (fun _ => 165)).1 11 (5 - 3)
      else false) :=
  draw_area130_cross_page_blit (fun _ => 165) (fun _ => by norm_num) 10 3 3
    (by norm_num) (by norm_num) (by norm_num) 11 (by norm_num) 5 (by norm_num)

/-- Any fuel above the loop's remaining iteration count `(y - x)` yields
the same list, so `r + 1` in `CFBDGraphic_DrawCircle_offsets` is exact. -/
theorem circleLoop_fuel_irrelevant : ∀ (f1 f2 : ℕ) (x y d : ℤ),
    (y - x).toNat < f1 → (y - x).toNat < f2 →
    circleLoop x y d f1 = circleLoop x y d f2 := by
  intro f1
  induction f1 with
  | zero => intro f2 x y d h1 _; exact absurd h1 (Nat.not_lt_zero _)
  | succ f ih =>
    intro f2 x y d h1 h2
    cases f2 with
    | zero => exact absurd h2 (Nat.not_lt_zero _)
    | succ f2' =>
      unfold circleLoop
      by_cases hxy : x < y
      · rw [if_pos hxy, if_pos hxy]
        by_cases hd : d < 0
        · rw [if_pos hd, if_pos hd, ih f2' _ _ _ (by omega) (by omega)]
        · rw [if_neg hd, if_neg hd, ih f2' _ _ _ (by omega) (by omega)]
      · rw [if_neg hxy, if_neg hxy]

/-- For every radius that fits a 128×64 frame, every plotted offset lies
within the `[r-1, r]` ring (squared bounds, natural-number arithmetic) and
within the `r`-box. -/
theorem circleOffsets_dist : ∀ r : ℕ, r < 32 →
    ∀ o ∈ CFBDGraphic_DrawCircle_offsets r,
      o.1.natAbs ≤ r ∧ o.2.natAbs ≤ r ∧
      (r - 1) ^ 2 ≤ o.1.natAbs ^ 2 + o.2.natAbs ^ 2 ∧
      o.1.natAbs ^ 2 + o.2.natAbs ^ 2 < (r + 1) ^ 2 := by
  set_option maxRecDepth 10000 in decide

/-- One octant block is closed under the swap and the two sign flips. -/
theorem circleOctetPoints_closed (x y : ℤ) :
    ∀ o ∈ circleOctetPoints x y,
      (o.2, o.1) ∈ circleOctetPoints x y ∧
      (-o.1, o.2) ∈ circleOctetPoints x y ∧
      (o.1, -o.2) ∈ circleOctetPoints x y := by
  intro o ho
  simp only [circleOctetPoints, List.mem_cons, List.not_mem_nil, or_false] at ho ⊢
  rcases ho with h|h|h|h|h|h|h|h <;> subst h <;> simp [Prod.ext_iff, neg_neg]

/-- The loop's point list is closed under the three octant reflections. -/
theorem circleLoop_closed : ∀ (fuel : ℕ) (x y d : ℤ),
    ∀ o ∈ circleLoop x y d fuel,
      (o.2, o.1) ∈ circleLoop x y d fuel ∧
      (-o.1, o.2) ∈ circleLoop x y d fuel ∧
      (o.1, -o.2) ∈ circleLoop x y d fuel := by
  intro fuel
  induction fuel with
  | zero => intro x y d o ho; exact absurd ho (List.not_mem_nil _)
  | succ f ih =>
    intro x y d o ho
    unfold circleLoop at ho ⊢
    by_cases hxy : x < y
    · rw [if_pos hxy] at ho ⊢
      by_cases hd : d < 0
      · rw [if_pos hd] at ho ⊢
        rcases List.mem_append.mp ho with hblk | hrec
        · obtain ⟨m1, m2, m3⟩ := circleOctetPoints_closed _ _ o hblk
          exact ⟨List.mem_append_left _ m1, List.mem_append_left _ m2,
                 List.mem_append_left _ m3⟩
        · obtain ⟨m1, m2, m3⟩ := ih _ _ _ o hrec
          exact ⟨List.mem_append_right _ m1, List.mem_append_right _ m2,
                 List.mem_append_right _ m3⟩
      · rw [if_neg hd] at ho ⊢
        rcases List.mem_append.mp ho with hblk | hrec
        · obtain ⟨m1, m2, m3⟩ := circleOctetPoints_closed _ _ o hblk
          exact ⟨List.mem_append_left _ m1, List.mem_append_left _ m2,
                 List.mem_append_left _ m3⟩
        · obtain ⟨m1, m2, m3⟩ := ih _ _ _ o hrec
          exact ⟨List.mem_append_right _ m1, List.mem_append_right _ m2,
                 List.mem_append_right _ m3⟩
    · rw [if_neg hxy] at ho
      exact absurd ho (List.not_mem_nil _)

/-- The full offset list is closed under the three generating octant
reflections (hence under all eight). -/
theorem circleOffsets_closed (r : ℕ) :
    ∀ o ∈ CFBDGraphic_DrawCircle_offsets r,
      (o.2, o.1) ∈ CFBDGraphic_DrawCircle_offsets r ∧
      (-o.1, o.2) ∈ CFBDGraphic_DrawCircle_offsets r ∧
      (o.1, -o.2) ∈ CFBDGraphic_DrawCircle_offsets r := by
  intro o ho
  unfold CFBDGraphic_DrawCircle_offsets at ho ⊢
  dsimp only at ho ⊢
  rcases List.mem_append.mp ho with hini | hrec
  · simp only [List.mem_cons, List.not_mem_nil, or_false] at hini
    rcases hini with h|h|h|h <;> subst h <;>
      refine ⟨List.mem_append_left _ ?_, List.mem_append_left _ ?_,
              List.mem_append_left _ ?_⟩ <;>
      simp [Prod.ext_iff, neg_neg, neg_zero]
  · obtain ⟨m1, m2, m3⟩ := circleLoop_closed _ _ _ _ o hrec
    exact ⟨List.mem_append_right _ m1, List.mem_append_right _ m2,
           List.mem_append_right _ m3⟩

/-- C5: for a circle fully inside the 1bpp logical bounds, every pixel the
outline rasterizer sets has integer Euclidean distance from the center in
`[r-1, r]` (as `Nat.sqrt` of the squared offset), and the pixel set is
invariant under the three generating octant reflections about the center
(mirror in `x`, mirror in `y`, and the diagonal swap — together they
generate all eight octant symmetries). -/
theorem drawCircle_ring_and_symmetric
    (cx cy r : ℕ) (h1 : r ≤ cx) (h2 : cx + r < 128) (h3 : r ≤ cy) (h4 : cy + r < 64) :
    ∀ p ∈ circlePixels cx cy r,
      (r ≤ Nat.sqrt (((p.1 : ℤ) - cx).natAbs ^ 2 + ((p.2 : ℤ) - cy).natAbs ^ 2) + 1 ∧
       Nat.sqrt (((p.1 : ℤ) - cx).natAbs ^ 2 + ((p.2 : ℤ) - cy).natAbs ^ 2) ≤ r) ∧
      ((2 * cx - p.1, p.2) ∈ circlePixels cx cy r ∧
       (p.1, 2 * cy - p.2) ∈ circlePixels cx cy r ∧
       (cx + p.2 - cy, cy + p.1 - cx) ∈ circlePixels cx cy r) := by
  have hr : r < 32 := by omega
  have hF : ∀ o ∈ CFBDGraphic_DrawCircle_offsets r,
      (((((cx : ℤ) + o.1) % 65536).toNat, (((cy : ℤ) + o.2) % 65536).toNat) =
        ((((cx : ℤ) + o.1).toNat, (((cy : ℤ) + o.2)).toNat) : ℕ × ℕ)) ∧
      ((cx : ℤ) + o.1).toNat < 128 ∧ ((cy : ℤ) + o.2).toNat < 64 := by
    intro o ho
    obtain ⟨b1, b2, _, _⟩ := circleOffsets_dist r hr o ho
    have e1 : ((cx : ℤ) + o.1) % 65536 = (cx : ℤ) + o.1 :=
      Int.emod_eq_of_lt (by omega) (by omega)
    have e2 : ((cy : ℤ) + o.2) % 65536 = (cy : ℤ) + o.2 :=
      Int.emod_eq_of_lt (by omega) (by omega)
    refine ⟨by rw [e1, e2], by omega, by omega⟩
  have hmk : ∀ o' ∈ CFBDGraphic_DrawCircle_offsets r,
      ((((cx : ℤ) + o'.1).toNat, ((cy : ℤ) + o'.2).toNat) : ℕ × ℕ) ∈
        circlePixels cx cy r := by
    intro o' ho'
    obtain ⟨hfe, hb1, hb2⟩ := hF o' ho'
    unfold circlePixels
    refine List.mem_filter.mpr ⟨List.mem_map.mpr ⟨o', ho', hfe⟩, ?_⟩
    simp only [LOGIC_WIDTH_130X, LOGIC_HEIGHT_130X, Bool.and_eq_true, decide_eq_true_eq]
    exact ⟨hb1, hb2⟩
  intro p hp
  unfold circlePixels at hp
  obtain ⟨hmap, _⟩ := List.mem_filter.mp hp
  obtain ⟨o, ho, hfo⟩ := List.mem_map.mp hmap
  obtain ⟨hfe, hb1, hb2⟩ := hF o ho
  rw [hfe] at hfo
  obtain ⟨b1, b2, blo, bhi⟩ := circleOffsets_dist r hr o ho
  have hp1 : (p.1 : ℤ) = (cx : ℤ) + o.1 := by
    have := congrArg Prod.fst hfo
    dsimp at this
    omega
  have hp2 : (p.2 : ℤ) = (cy : ℤ) + o.2 := by
    have := congrArg Prod.snd hfo
    dsimp at this
    omega
  have hd1 : ((p.1 : ℤ) - cx).natAbs = o.1.natAbs := by rw [hp1]; congr 1; omega
  have hd2 : ((p.2 : ℤ) - cy).natAbs = o.2.natAbs := by rw [hp2]; congr 1; omega
  obtain ⟨m1, m2, m3⟩ := circleOffsets_closed r o ho
  constructor
  · rw [hd1, hd2]
    constructor
    · have : r - 1 ≤ Nat.sqrt (o.1.natAbs ^ 2 + o.2.natAbs ^ 2) :=
        Nat.le_sqrt'.mpr blo
      omega
    · have : Nat.sqrt (o.1.natAbs ^ 2 + o.2.natAbs ^ 2) < r + 1 :=
        Nat.sqrt_lt'.mpr bhi
      omega
  · refine ⟨?_, ?_, ?_⟩
    · have he : ((2 * cx - p.1, p.2) : ℕ × ℕ) =
          (((cx : ℤ) + (-o.1, o.2).1).toNat, ((cy : ℤ) + (-o.1, o.2).2).toNat) := by
        have hq := congrArg Prod.fst hfo
        have hq2 := congrArg Prod.snd hfo
        dsimp at hq hq2 ⊢
        refine Prod.ext ?_ ?_ <;> dsimp <;> omega
      rw [he]
      exact hmk _ m2
    · have he : ((p.1, 2 * cy - p.2) : ℕ × ℕ) =
          (((cx : ℤ) + (o.1, -o.2).1).toNat, ((cy : ℤ) + (o.1, -o.2).2).toNat) := by
        have hq := congrArg Prod.fst hfo
        have hq2 := congrArg Prod.snd hfo
        dsimp at hq hq2 ⊢
        refine Prod.ext ?_ ?_ <;> dsimp <;> omega
      rw [he]
      exact hmk _ m3
    · have he : ((cx + p.2 - cy, cy + p.1 - cx) : ℕ × ℕ) =
          (((cx : ℤ) + (o.2, o.1).1).toNat, ((cy : ℤ) + (o.2, o.1).2).toNat) := by
        have hq := congrArg Prod.fst hfo
        have hq2 := congrArg Prod.snd hfo
        dsimp at hq hq2 ⊢
        refine Prod.ext ?_ ?_ <;> dsimp <;> omega
      rw [he]
      exact hmk _ m1

/-- C5 witness: radius 10 at center `(64, 32)`; the plotted pixel
`(64, 42)` is at integer distance 10 and its x-mirror is plotted too. -/
theorem drawCircle_ring_and_symmetric_witness :
    Nat.sqrt (((((64, 42) : ℕ × ℕ).1 : ℤ) - 64).natAbs ^ 2 +
      ((((64, 42) : ℕ × ℕ).2 : ℤ) - 32).natAbs ^ 2) ≤ 10 ∧
    (2 * 64 - ((64, 42) : ℕ × ℕ).1, ((64, 42) : ℕ × ℕ).2) ∈ circlePixels 64 32 10 :=
  ⟨((drawCircle_ring_and_symmetric 64 32 10 (by decide) (by decide) (by decide)
      (by decide)) (64, 42) (by decide)).1.2,
   ((drawCircle_ring_and_symmetric 64 32 10 (by decide) (by decide) (by decide)
      (by decide)) (64, 42) (by decide)).2.1⟩

/-- C6: the line rasterizer does *not* clear the shape's bounding box
before plotting: drawing the line `(0,0)–(3,2)` plots pixels but its
device-call trace contains no `clear_area` call at all (`clearBounds`
computes the box and then makes no device call). -/
theorem drawLine_trace_has_no_clear :
    (∀ e ∈ CFBDGraphic_DrawLine_trace ⟨⟨0, 0⟩, ⟨3, 2⟩⟩ false, e.isClearArea = false) ∧
    (∃ e ∈ CFBDGraphic_DrawLine_trace ⟨⟨0, 0⟩, ⟨3, 2⟩⟩ false, e.isSetPixel = true) := by
  decide

/-- `rect_normalize` orders the corners (helper, proof as for the spec
theorem but usable by other proofs). -/
theorem rect_normalize_ordered (r : GRect) :
    (rect_normalize r).tl.x ≤ (rect_normalize r).br.x ∧
    (rect_normalize r).tl.y ≤ (rect_normalize r).br.y := by
  unfold rect_normalize
  dsimp only
  constructor <;> (split_ifs <;> omega)

/-- `rect_normalize` is idempotent (helper). -/
theorem rect_normalize_idem (r : GRect) :
    rect_normalize (rect_normalize r) = rect_normalize r := by
  unfold rect_normalize
  dsimp only
  split_ifs <;>
    (first | rfl |
      (simp only [GRect.mk.injEq, GPoint.mk.injEq, true_and, and_true]; omega))

/-- On an already-normalized rectangle the outcode is the sum of an x-part
and a y-part. -/
theorem cs_code_eq (n : GRect) (hn : rect_normalize n = n) (x y : ℤ) :
    cs_compute_code n x y =
      (if x < (n.tl.x : ℤ) then 1 else if x > (n.br.x : ℤ) then 2 else 0) +
      (if y < (n.tl.y : ℤ) then 8 else if y > (n.br.y : ℤ) then 4 else 0) := by
  unfold cs_compute_code
  rw [hn]
  dsimp only
  split_ifs <;> rfl

/-- The outcode's `CS_LEFT` bit. -/
theorem code_testBit0 (n : GRect) (hn : rect_normalize n = n) (x y : ℤ) :
    (cs_compute_code n x y).testBit 0 = true ↔ x < (n.tl.x : ℤ) := by
  rw [cs_code_eq n hn]
  split_ifs <;> (try rw [Nat.testBit_to_div_mod]) <;> norm_num <;> omega

/-- The outcode's `CS_RIGHT` bit. -/
theorem code_testBit1 (n : GRect) (hn : rect_normalize n = n) (x y : ℤ) :
    (cs_compute_code n x y).testBit 1 = true ↔
      (¬ x < (n.tl.x : ℤ) ∧ x > (n.br.x : ℤ)) := by
  rw [cs_code_eq n hn]
  split_ifs <;> (try rw [Nat.testBit_to_div_mod]) <;> norm_num <;> omega

/-- The outcode's `CS_BOTTOM` bit. -/
theorem code_testBit2 (n : GRect) (hn : rect_normalize n = n) (x y : ℤ) :
    (cs_compute_code n x y).testBit 2 = true ↔
      (¬ y < (n.tl.y : ℤ) ∧ y > (n.br.y : ℤ)) := by
  rw [cs_code_eq n hn]
  split_ifs <;> (try rw [Nat.testBit_to_div_mod]) <;> norm_num <;> omega

/-- The outcode's `CS_TOP` bit. -/
theorem code_testBit3 (n : GRect) (hn : rect_normalize n = n) (x y : ℤ) :
    (cs_compute_code n x y).testBit 3 = true ↔ y < (n.tl.y : ℤ) := by
  rw [cs_code_eq n hn]
  split_ifs <;> (try rw [Nat.testBit_to_div_mod]) <;> norm_num <;> omega

/-- Zero outcode means the point is inside the rectangle. -/
theorem code_eq_zero_iff (n : GRect) (hn : rect_normalize n = n) (x y : ℤ) :
    cs_compute_code n x y = 0 ↔
      (¬ x < (n.tl.x : ℤ) ∧ ¬ x > (n.br.x : ℤ) ∧
       ¬ y < (n.tl.y : ℤ) ∧ ¬ y > (n.br.y : ℤ)) := by
  rw [cs_code_eq n hn]
  split_ifs <;> simp_all

/-- The bit count of an outcode, in terms of the point's position. -/
theorem pop4_code (n : GRect) (hn : rect_normalize n = n) (x y : ℤ) :
    pop4 (cs_compute_code n x y) =
      (if x < (n.tl.x : ℤ) then 1 else if x > (n.br.x : ℤ) then 1 else 0) +
      (if y < (n.tl.y : ℤ) then 1 else if y > (n.br.y : ℤ) then 1 else 0) := by
  rw [cs_code_eq n hn]
  split_ifs <;> rfl

/-- A nonzero outcode has a set bit. -/
theorem pop4_code_pos (n : GRect) (hn : rect_normalize n = n) (x y : ℤ)
    (h : cs_compute_code n x y ≠ 0) : 1 ≤ pop4 (cs_compute_code n x y) := by
  rw [cs_code_eq n hn] at h
  rw [pop4_code n hn]
  revert h
  split_ifs <;> simp

/-- Two numbers sharing a set bit have nonzero AND. -/
theorem land_ne_zero_of_testBit {a b k : ℕ}
    (ha : a.testBit k = true) (hb : b.testBit k = true) : a &&& b ≠ 0 := by
  intro h
  have : (a &&& b).testBit k = true := by rw [Nat.testBit_and, ha, hb]; rfl
  rw [h, Nat.zero_testBit] at this
  exact Bool.false_ne_true this

/-- If two numbers have zero AND, no bit is set in both. -/
theorem testBit_eq_false_of_land_eq_zero {a b : ℕ} (h : a &&& b = 0) {k : ℕ}
    (ha : a.testBit k = true) : b.testBit k = false := by
  by_contra hb
  exact land_ne_zero_of_testBit ha (by simpa using hb) h

/-- `c &&& 2^k ≠ 0` is exactly `testBit k` (stated for the four outcode
masks used by the loop). -/
theorem and_mask_ne_iff (c : ℕ) :
    (c &&& 8 ≠ 0 ↔ c.testBit 3 = true) ∧ (c &&& 4 ≠ 0 ↔ c.testBit 2 = true) ∧
    (c &&& 2 ≠ 0 ↔ c.testBit 1 = true) ∧ (c &&& 1 ≠ 0 ↔ c.testBit 0 = true) := by
  refine ⟨?_, ?_, ?_, ?_⟩
  · rw [show (8 : ℕ) = 2 ^ 3 by norm_num, Nat.and_two_pow]
    cases h : c.testBit 3 <;> simp [h]
  · rw [show (4 : ℕ) = 2 ^ 2 by norm_num, Nat.and_two_pow]
    cases h : c.testBit 2 <;> simp [h]
  · rw [show (2 : ℕ) = 2 ^ 1 by norm_num, Nat.and_two_pow]
    cases h : c.testBit 1 <;> simp [h]
  · rw [show (1 : ℕ) = 2 ^ 0 by norm_num, Nat.and_two_pow]
    cases h : c.testBit 0 <;> simp [h]

/-- The truncating division of a scaled value stays between `0` and the
scaling base: for `0 ≤ t ≤ d`, `(a * t).tdiv d` lies between `0` and `a`. -/
theorem tdiv_interp_bounds (a t d : ℤ) (h0 : 0 ≤ t) (h1 : t ≤ d) (h2 : 0 < d) :
    (0 ≤ a → 0 ≤ (a * t).tdiv d ∧ (a * t).tdiv d ≤ a) ∧
    (a ≤ 0 → a ≤ (a * t).tdiv d ∧ (a * t).tdiv d ≤ 0) := by
  constructor
  · intro ha
    have hnn : 0 ≤ a * t := mul_nonneg ha h0
    refine ⟨Int.tdiv_nonneg hnn (by omega), ?_⟩
    rw [Int.tdiv_eq_ediv hnn (by omega)]
    calc a * t / d ≤ a * d / d := Int.ediv_le_ediv h2 (by nlinarith)
    _ = a := Int.mul_ediv_cancel a (by omega)
  · intro ha
    have key : 0 ≤ (-a) * t ∧ ((-a) * t).tdiv d ≤ -a := by
      have hnn : 0 ≤ (-a) * t := mul_nonneg (by omega) h0
      refine ⟨hnn, ?_⟩
      rw [Int.tdiv_eq_ediv hnn (by omega)]
      calc (-a) * t / d ≤ (-a) * d / d := Int.ediv_le_ediv h2 (by nlinarith)
      _ = -a := Int.mul_ediv_cancel (-a) (by omega)
    have hneg : (a * t).tdiv d = -(((-a) * t).tdiv d) := by
      rw [show a * t = -((-a) * t) by ring, Int.neg_tdiv]
    constructor
    · rw [hneg]
      omega
    · rw [hneg]
      have := Int.tdiv_nonneg key.1 (le_of_lt h2)
      omega

/-- As `tdiv_interp_bounds`, mirrored for a negative direction. -/
theorem tdiv_interp_bounds_neg (a t d : ℤ) (h0 : t ≤ 0) (h1 : d ≤ t) (h2 : d < 0) :
    (0 ≤ a → 0 ≤ (a * t).tdiv d ∧ (a * t).tdiv d ≤ a) ∧
    (a ≤ 0 → a ≤ (a * t).tdiv d ∧ (a * t).tdiv d ≤ 0) := by
  have key : (a * t).tdiv d = (a * (-t)).tdiv (-d) := by
    rw [Int.tdiv_neg, show a * t = -(a * (-t)) by ring, Int.neg_tdiv]
  rw [key]
  exact tdiv_interp_bounds a (-t) (-d) (by omega) (by omega) (by omega)

/-- An outcode has at most two bits set. -/
theorem pop4_code_le_two (n : GRect) (hn : rect_normalize n = n) (x y : ℤ) :
    pop4 (cs_compute_code n x y) ≤ 2 := by
  rw [pop4_code n hn]
  split_ifs <;> norm_num

/-- With at least one unit of fuel, an accepting or rejecting state
returns. -/
theorem clip_loop_exit (n : GRect) (fuel : ℕ) (hf : 1 ≤ fuel)
    (x0 y0 x1 y1 : ℤ) (c0 c1 : ℕ)
    (h : c0 ||| c1 = 0 ∨ c0 &&& c1 ≠ 0) :
    (rect_clip_line_loop n fuel x0 y0 x1 y1 c0 c1).isSome = true := by
  cases fuel with
  | zero => omega
  | succ f =>
    unfold rect_clip_line_loop
    by_cases hA : c0 ||| c1 = 0
    · rw [if_pos hA]
      rfl
    · rcases h with h | h
      · exact absurd h hA
      · rw [if_neg hA, if_pos h]
        rfl

/-- After clipping to a horizontal boundary `b` the new outcode has no
y-bits, and its x-bit can only come from the clipped endpoint's side once
the other endpoint's sides are excluded. -/
theorem yclip_pop (n : GRect) (hn : rect_normalize n = n) (b nx xe xo : ℤ)
    (hb1 : ¬ b < (n.tl.y : ℤ)) (hb2 : ¬ b > (n.br.y : ℤ))
    (h1 : min xe xo ≤ nx) (h2 : nx ≤ max xe xo)
    (hexl : nx < (n.tl.x : ℤ) → ¬ xo < (n.tl.x : ℤ))
    (hexr : (¬ nx < (n.tl.x : ℤ) ∧ nx > (n.br.x : ℤ)) → ¬ xo > (n.br.x : ℤ)) :
    pop4 (cs_compute_code n nx b) ≤
      (if xe < (n.tl.x : ℤ) then 1 else if xe > (n.br.x : ℤ) then 1 else 0) := by
  rw [pop4_code n hn, if_neg hb1, if_neg hb2, Nat.add_zero]
  by_cases hl : nx < (n.tl.x : ℤ)
  · have hxo := hexl hl
    have hxe : xe < (n.tl.x : ℤ) := by omega
    rw [if_pos hl, if_pos hxe]
  · by_cases hr : nx > (n.br.x : ℤ)
    · have hxo := hexr ⟨hl, hr⟩
      have hord := rect_normalize_ordered n
      rw [hn] at hord
      have hxe2 : xe > (n.br.x : ℤ) := by omega
      have hxe1 : ¬ xe < (n.tl.x : ℤ) := by
        have h := hord.1
        omega
      rw [if_neg hl, if_pos hr, if_neg hxe1, if_pos hxe2]
    · rw [if_neg hl, if_neg hr]
      split_ifs <;> omega

/-- After clipping to a vertical boundary `a` the new outcode has no
x-bits, and its y-bit can only come from the clipped endpoint's side once
the other endpoint's sides are excluded. -/
theorem xclip_pop (n : GRect) (hn : rect_normalize n = n) (a ny ye yo : ℤ)
    (ha1 : ¬ a < (n.tl.x : ℤ)) (ha2 : ¬ a > (n.br.x : ℤ))
    (h1 : min ye yo ≤ ny) (h2 : ny ≤ max ye yo)
    (hext : ny < (n.tl.y : ℤ) → ¬ yo < (n.tl.y : ℤ))
    (hexb : (¬ ny < (n.tl.y : ℤ) ∧ ny > (n.br.y : ℤ)) → ¬ yo > (n.br.y : ℤ)) :
    pop4 (cs_compute_code n a ny) ≤
      (if ye < (n.tl.y : ℤ) then 1 else if ye > (n.br.y : ℤ) then 1 else 0) := by
  rw [pop4_code n hn, if_neg ha1, if_neg ha2, Nat.zero_add]
  by_cases ht : ny < (n.tl.y : ℤ)
  · have hyo := hext ht
    have hye : ye < (n.tl.y : ℤ) := by omega
    rw [if_pos ht, if_pos hye]
  · by_cases hb : ny > (n.br.y : ℤ)
    · have hyo := hexb ⟨ht, hb⟩
      have hord := rect_normalize_ordered n
      rw [hn] at hord
      have hye2 : ye > (n.br.y : ℤ) := by omega
      have hye1 : ¬ ye < (n.tl.y : ℤ) := by
        have h := hord.2
        omega
      rw [if_neg ht, if_pos hb, if_neg hye1, if_pos hye2]
    · rw [if_neg ht, if_neg hb]
      split_ifs <;> omega

/-- An outcode is zero or has one of the four side bits. -/
theorem code_cases (n : GRect) (hn : rect_normalize n = n) (x y : ℤ) :
    cs_compute_code n x y = 0 ∨ cs_compute_code n x y &&& 8 ≠ 0 ∨
    cs_compute_code n x y &&& 4 ≠ 0 ∨ cs_compute_code n x y &&& 2 ≠ 0 ∨
    cs_compute_code n x y &&& 1 ≠ 0 := by
  rw [cs_code_eq n hn]
  split_ifs <;> decide

/-- A set `CS_TOP` bit means the point is above the rectangle. -/
theorem code_top_true (n : GRect) (hn : rect_normalize n = n) (x y : ℤ)
    (h : cs_compute_code n x y &&& 8 ≠ 0) : y < (n.tl.y : ℤ) :=
  (code_testBit3 n hn x y).mp (((and_mask_ne_iff _).1).mp h)

/-- A set `CS_BOTTOM` bit. -/
theorem code_bottom_true (n : GRect) (hn : rect_normalize n = n) (x y : ℤ)
    (h : cs_compute_code n x y &&& 4 ≠ 0) :
    ¬ y < (n.tl.y : ℤ) ∧ y > (n.br.y : ℤ) :=
  (code_testBit2 n hn x y).mp (((and_mask_ne_iff _).2.1).mp h)

/-- A set `CS_RIGHT` bit. -/
theorem code_right_true (n : GRect) (hn : rect_normalize n = n) (x y : ℤ)
    (h : cs_compute_code n x y &&& 2 ≠ 0) :
    ¬ x < (n.tl.x : ℤ) ∧ x > (n.br.x : ℤ) :=
  (code_testBit1 n hn x y).mp (((and_mask_ne_iff _).2.2.1).mp h)

/-- A set `CS_LEFT` bit. -/
theorem code_left_true (n : GRect) (hn : rect_normalize n = n) (x y : ℤ)
    (h : cs_compute_code n x y &&& 1 ≠ 0) : x < (n.tl.x : ℤ) :=
  (code_testBit0 n hn x y).mp (((and_mask_ne_iff _).2.2.2).mp h)

/-- Disjoint outcodes cannot both be left of the rectangle. -/
theorem share0 (n : GRect) (hn : rect_normalize n = n) (a b c d : ℤ)
    (h : cs_compute_code n a b &&& cs_compute_code n c d = 0)
    (h1 : a < (n.tl.x : ℤ)) : ¬ c < (n.tl.x : ℤ) := fun h2 =>
  land_ne_zero_of_testBit ((code_testBit0 n hn a b).mpr h1)
    ((code_testBit0 n hn c d).mpr h2) h

/-- Disjoint outcodes cannot both be right of the rectangle. -/
theorem share1 (n : GRect) (hn : rect_normalize n = n) (a b c d : ℤ)
    (h : cs_compute_code n a b &&& cs_compute_code n c d = 0)
    (h1 : ¬ a < (n.tl.x : ℤ) ∧ a > (n.br.x : ℤ)) :
    ¬ (¬ c < (n.tl.x : ℤ) ∧ c > (n.br.x : ℤ)) := fun h2 =>
  land_ne_zero_of_testBit ((code_testBit1 n hn a b).mpr h1)
    ((code_testBit1 n hn c d).mpr h2) h

/-- Disjoint outcodes cannot both be below the rectangle. -/
theorem share2 (n : GRect) (hn : rect_normalize n = n) (a b c d : ℤ)
    (h : cs_compute_code n a b &&& cs_compute_code n c d = 0)
    (h1 : ¬ b < (n.tl.y : ℤ) ∧ b > (n.br.y : ℤ)) :
    ¬ (¬ d < (n.tl.y : ℤ) ∧ d > (n.br.y : ℤ)) := fun h2 =>
  land_ne_zero_of_testBit ((code_testBit2 n hn a b).mpr h1)
    ((code_testBit2 n hn c d).mpr h2) h

/-- Disjoint outcodes cannot both be above the rectangle. -/
theorem share3 (n : GRect) (hn : rect_normalize n = n) (a b c d : ℤ)
    (h : cs_compute_code n a b &&& cs_compute_code n c d = 0)
    (h1 : b < (n.tl.y : ℤ)) : ¬ d < (n.tl.y : ℤ) := fun h2 =>
  land_ne_zero_of_testBit ((code_testBit3 n hn a b).mpr h1)
    ((code_testBit3 n hn c d).mpr h2) h

/-- Master lemma: with fuel exceeding the total outcode bit count of the
two endpoints, the Cohen–Sutherland loop reaches accept or reject.  Each
clip lands the clipped endpoint exactly on the boundary (the clipped-axis
bits drop) and keeps it between the two x- (resp. y-) coordinates; a
cross-axis bit it acquires must be a side the other endpoint does not
share, or the very next iteration rejects. -/
theorem clip_loop_some (n : GRect) (hn : rect_normalize n = n) :
    ∀ (fuel : ℕ) (x0 y0 x1 y1 : ℤ),
      pop4 (cs_compute_code n x0 y0) + pop4 (cs_compute_code n x1 y1) < fuel →
      (rect_clip_line_loop n fuel x0 y0 x1 y1
        (cs_compute_code n x0 y0) (cs_compute_code n x1 y1)).isSome = true := by
  have hOX : (n.tl.x : ℤ) ≤ (n.br.x : ℤ) := by
    have h := rect_normalize_ordered n
    rw [hn] at h
    exact_mod_cast h.1
  have hOY : (n.tl.y : ℤ) ≤ (n.br.y : ℤ) := by
    have h := rect_normalize_ordered n
    rw [hn] at h
    exact_mod_cast h.2
  intro fuel
  induction fuel with
  | zero =>
    intro x0 y0 x1 y1 h
    omega
  | succ f ih =>
    intro x0 y0 x1 y1 hfuel
    by_cases hA : cs_compute_code n x0 y0 ||| cs_compute_code n x1 y1 = 0
    · unfold rect_clip_line_loop
      rw [if_pos hA]
      rfl
    · by_cases hB : cs_compute_code n x0 y0 &&& cs_compute_code n x1 y1 ≠ 0
      · unfold rect_clip_line_loop
        rw [if_neg hA, if_pos hB]
        rfl
      · have hB' : cs_compute_code n x0 y0 &&& cs_compute_code n x1 y1 = 0 :=
          not_ne_iff.mp hB
        unfold rect_clip_line_loop
        rw [if_neg hA, if_neg hB]
        dsimp only
        by_cases ho : cs_compute_code n x0 y0 ≠ 0
        · rw [if_pos ho,
            if_pos (rfl : cs_compute_code n x0 y0 = cs_compute_code n x0 y0)]
          have hf1 : 1 ≤ f := by
            have h1 := pop4_code_pos n hn x0 y0 ho
            omega
          by_cases hT : cs_compute_code n x0 y0 &&& 8 ≠ 0
          · rw [if_pos hT]
            dsimp only
            have hy0 : y0 < (n.tl.y : ℤ) := code_top_true n hn x0 y0 hT
            have hy1 : ¬ y1 < (n.tl.y : ℤ) := share3 n hn x0 y0 x1 y1 hB' hy0
            set nx := x0 + Int.tdiv ((x1 - x0) * ((n.tl.y : ℤ) - y0)) (y1 - y0)
              with hnx
            have hbd := tdiv_interp_bounds (x1 - x0) ((n.tl.y : ℤ) - y0)
              (y1 - y0) (by omega) (by omega) (by omega)
            have hmm : min x0 x1 ≤ nx ∧ nx ≤ max x0 x1 := by
              rw [hnx]
              rcases le_or_lt 0 (x1 - x0) with hc | hc
              · obtain ⟨u1, u2⟩ := hbd.1 hc
                constructor <;> omega
              · obtain ⟨u1, u2⟩ := hbd.2 (le_of_lt hc)
                constructor <;> omega
            clear_value nx
            by_cases hnext : cs_compute_code n nx (n.tl.y : ℤ) &&&
                cs_compute_code n x1 y1 ≠ 0
            · exact clip_loop_exit n f hf1 nx (n.tl.y : ℤ) x1 y1 _ _
                (Or.inr hnext)
            · have hsh : cs_compute_code n nx (n.tl.y : ℤ) &&&
                  cs_compute_code n x1 y1 = 0 := not_ne_iff.mp hnext
              have hexr : (¬ nx < (n.tl.x : ℤ) ∧ nx > (n.br.x : ℤ)) →
                  ¬ x1 > (n.br.x : ℤ) := by
                intro hp hgt
                exact share1 n hn nx (n.tl.y : ℤ) x1 y1 hsh hp ⟨by omega, hgt⟩
              have hpnew := yclip_pop n hn (n.tl.y : ℤ) nx x0 x1
                (lt_irrefl _) (by omega) hmm.1 hmm.2
                (share0 n hn nx (n.tl.y : ℤ) x1 y1 hsh) hexr
              have hkey : pop4 (cs_compute_code n nx (n.tl.y : ℤ)) + 1 ≤
                  pop4 (cs_compute_code n x0 y0) := by
                rw [pop4_code n hn x0 y0, if_pos hy0]
                omega
              exact ih nx (n.tl.y : ℤ) x1 y1 (by omega)
          · rw [if_neg hT]
            by_cases hBt : cs_compute_code n x0 y0 &&& 4 ≠ 0
            · rw [if_pos hBt]
              dsimp only
              have hpair := code_bottom_true n hn x0 y0 hBt
              have hsh2 := share2 n hn x0 y0 x1 y1 hB' hpair
              have hy1b : ¬ y1 > (n.br.y : ℤ) := by
                intro hgt
                by_cases hc : y1 < (n.tl.y : ℤ)
                · omega
                · exact hsh2 ⟨hc, hgt⟩
              set nx := x0 + Int.tdiv ((x1 - x0) * ((n.br.y : ℤ) - y0))
                (y1 - y0) with hnx
              have hbd := tdiv_interp_bounds_neg (x1 - x0)
                ((n.br.y : ℤ) - y0) (y1 - y0)
                (by omega) (by omega) (by omega)
              have hmm : min x0 x1 ≤ nx ∧ nx ≤ max x0 x1 := by
                rw [hnx]
                rcases le_or_lt 0 (x1 - x0) with hc | hc
                · obtain ⟨u1, u2⟩ := hbd.1 hc
                  constructor <;> omega
                · obtain ⟨u1, u2⟩ := hbd.2 (le_of_lt hc)
                  constructor <;> omega
              clear_value nx
              by_cases hnext : cs_compute_code n nx (n.br.y : ℤ) &&&
                  cs_compute_code n x1 y1 ≠ 0
              · exact clip_loop_exit n f hf1 nx (n.br.y : ℤ) x1 y1 _ _
                  (Or.inr hnext)
              · have hsh : cs_compute_code n nx (n.br.y : ℤ) &&&
                    cs_compute_code n x1 y1 = 0 := not_ne_iff.mp hnext
                have hexr : (¬ nx < (n.tl.x : ℤ) ∧ nx > (n.br.x : ℤ)) →
                    ¬ x1 > (n.br.x : ℤ) := by
                  intro hp hgt
                  exact share1 n hn nx (n.br.y : ℤ) x1 y1 hsh hp
                    ⟨by omega, hgt⟩
                have hpnew := yclip_pop n hn (n.br.y : ℤ) nx x0 x1
                  (by omega) (lt_irrefl _) hmm.1 hmm.2
                  (share0 n hn nx (n.br.y : ℤ) x1 y1 hsh) hexr
                have hkey : pop4 (cs_compute_code n nx (n.br.y : ℤ)) + 1 ≤
                    pop4 (cs_compute_code n x0 y0) := by
                  rw [pop4_code n hn x0 y0, if_neg hpair.1, if_pos hpair.2]
                  omega
                exact ih nx (n.br.y : ℤ) x1 y1 (by omega)
            · rw [if_neg hBt]
              by_cases hR : cs_compute_code n x0 y0 &&& 2 ≠ 0
              · rw [if_pos hR]
                dsimp only
                have hpair := code_right_true n hn x0 y0 hR
                have hsh1 := share1 n hn x0 y0 x1 y1 hB' hpair
                have hx1r : ¬ x1 > (n.br.x : ℤ) := by
                  intro hgt
                  by_cases hc : x1 < (n.tl.x : ℤ)
                  · omega
                  · exact hsh1 ⟨hc, hgt⟩
                set ny := y0 + Int.tdiv ((y1 - y0) * ((n.br.x : ℤ) - x0))
                  (x1 - x0) with hny
                have hbd := tdiv_interp_bounds_neg (y1 - y0)
                  ((n.br.x : ℤ) - x0) (x1 - x0)
                  (by omega) (by omega) (by omega)
                have hmm : min y0 y1 ≤ ny ∧ ny ≤ max y0 y1 := by
                  rw [hny]
                  rcases le_or_lt 0 (y1 - y0) with hc | hc
                  · obtain ⟨u1, u2⟩ := hbd.1 hc
                    constructor <;> omega
                  · obtain ⟨u1, u2⟩ := hbd.2 (le_of_lt hc)
                    constructor <;> omega
                clear_value ny
                by_cases hnext : cs_compute_code n (n.br.x : ℤ) ny &&&
                    cs_compute_code n x1 y1 ≠ 0
                · exact clip_loop_exit n f hf1 (n.br.x : ℤ) ny x1 y1 _ _
                    (Or.inr hnext)
                · have hsh : cs_compute_code n (n.br.x : ℤ) ny &&&
                      cs_compute_code n x1 y1 = 0 := not_ne_iff.mp hnext
                  have hexb : (¬ ny < (n.tl.y : ℤ) ∧ ny > (n.br.y : ℤ)) →
                      ¬ y1 > (n.br.y : ℤ) := by
                    intro hp hgt
                    exact share2 n hn (n.br.x : ℤ) ny x1 y1 hsh hp
                      ⟨by omega, hgt⟩
                  have hpnew := xclip_pop n hn (n.br.x : ℤ) ny y0 y1
                    (by omega) (lt_irrefl _) hmm.1 hmm.2
                    (share3 n hn (n.br.x : ℤ) ny x1 y1 hsh) hexb
                  have hkey : pop4 (cs_compute_code n (n.br.x : ℤ) ny) + 1 ≤
                      pop4 (cs_compute_code n x0 y0) := by
                    rw [pop4_code n hn x0 y0, if_neg hpair.1, if_pos hpair.2]
                    omega
                  exact ih (n.br.x : ℤ) ny x1 y1 (by omega)
              · rw [if_neg hR]
                by_cases hL : cs_compute_code n x0 y0 &&& 1 ≠ 0
                · rw [if_pos hL]
                  dsimp only
                  have hx0 : x0 < (n.tl.x : ℤ) := code_left_true n hn x0 y0 hL
                  have hx1 : ¬ x1 < (n.tl.x : ℤ) :=
                    share0 n hn x0 y0 x1 y1 hB' hx0
                  set ny := y0 + Int.tdiv ((y1 - y0) * ((n.tl.x : ℤ) - x0))
                    (x1 - x0) with hny
                  have hbd := tdiv_interp_bounds (y1 - y0)
                    ((n.tl.x : ℤ) - x0) (x1 - x0)
                    (by omega) (by omega) (by omega)
                  have hmm : min y0 y1 ≤ ny ∧ ny ≤ max y0 y1 := by
                    rw [hny]
                    rcases le_or_lt 0 (y1 - y0) with hc | hc
                    · obtain ⟨u1, u2⟩ := hbd.1 hc
                      constructor <;> omega
                    · obtain ⟨u1, u2⟩ := hbd.2 (le_of_lt hc)
                      constructor <;> omega
                  clear_value ny
                  by_cases hnext : cs_compute_code n (n.tl.x : ℤ) ny &&&
                      cs_compute_code n x1 y1 ≠ 0
                  · exact clip_loop_exit n f hf1 (n.tl.x : ℤ) ny x1 y1 _ _
                      (Or.inr hnext)
                  · have hsh : cs_compute_code n (n.tl.x : ℤ) ny &&&
                        cs_compute_code n x1 y1 = 0 := not_ne_iff.mp hnext
                    have hexb : (¬ ny < (n.tl.y : ℤ) ∧ ny > (n.br.y : ℤ)) →
                        ¬ y1 > (n.br.y : ℤ) := by
                      intro hp hgt
                      exact share2 n hn (n.tl.x : ℤ) ny x1 y1 hsh hp
                        ⟨by omega, hgt⟩
                    have hpnew := xclip_pop n hn (n.tl.x : ℤ) ny y0 y1
                      (lt_irrefl _) (by omega) hmm.1 hmm.2
                      (share3 n hn (n.tl.x : ℤ) ny x1 y1 hsh) hexb
                    have hkey : pop4 (cs_compute_code n (n.tl.x : ℤ) ny) + 1 ≤
                        pop4 (cs_compute_code n x0 y0) := by
                      rw [pop4_code n hn x0 y0, if_pos hx0]
                      omega
                    exact ih (n.tl.x : ℤ) ny x1 y1 (by omega)
                · exfalso
                  rcases code_cases n hn x0 y0 with h | h | h | h | h
                  exacts [ho h, hT h, hBt h, hR h, hL h]
        · have hc0 : cs_compute_code n x0 y0 = 0 := not_ne_iff.mp ho
          have hc1 : cs_compute_code n x1 y1 ≠ 0 := by
            intro h
            apply hA
            rw [hc0, h]
            decide
          have hne : ¬ cs_compute_code n x1 y1 = cs_compute_code n x0 y0 :=
            fun h => hc1 (h.trans hc0)
          rw [if_neg ho, if_neg hne]
          have hf1 : 1 ≤ f := by
            have h1 := pop4_code_pos n hn x1 y1 hc1
            omega
          obtain ⟨hz1, hz2, hz3, hz4⟩ := (code_eq_zero_iff n hn x0 y0).mp hc0
          have hp0z : pop4 (cs_compute_code n x0 y0) = 0 := by
            rw [hc0]
            decide
          by_cases hT : cs_compute_code n x1 y1 &&& 8 ≠ 0
          · rw [if_pos hT]
            dsimp only
            have hy1 : y1 < (n.tl.y : ℤ) := code_top_true n hn x1 y1 hT
            set nx := x0 + Int.tdiv ((x1 - x0) * ((n.tl.y : ℤ) - y0)) (y1 - y0)
              with hnx
            have hbd := tdiv_interp_bounds_neg (x1 - x0) ((n.tl.y : ℤ) - y0)
              (y1 - y0) (by omega) (by omega) (by omega)
            have hmm : min x1 x0 ≤ nx ∧ nx ≤ max x1 x0 := by
              rw [hnx]
              rcases le_or_lt 0 (x1 - x0) with hc | hc
              · obtain ⟨u1, u2⟩ := hbd.1 hc
                constructor <;> omega
              · obtain ⟨u1, u2⟩ := hbd.2 (le_of_lt hc)
                constructor <;> omega
            clear_value nx
            have hpnew := yclip_pop n hn (n.tl.y : ℤ) nx x1 x0
              (lt_irrefl _) (by omega) hmm.1 hmm.2
              (fun _ => hz1) (fun _ => hz2)
            have hkey : pop4 (cs_compute_code n nx (n.tl.y : ℤ)) + 1 ≤
                pop4 (cs_compute_code n x1 y1) := by
              rw [pop4_code n hn x1 y1, if_pos hy1]
              omega
            exact ih x0 y0 nx (n.tl.y : ℤ) (by omega)
          · rw [if_neg hT]
            by_cases hBt : cs_compute_code n x1 y1 &&& 4 ≠ 0
            · rw [if_pos hBt]
              dsimp only
              have hpair := code_bottom_true n hn x1 y1 hBt
              set nx := x0 + Int.tdiv ((x1 - x0) * ((n.br.y : ℤ) - y0))
                (y1 - y0) with hnx
              have hbd := tdiv_interp_bounds (x1 - x0) ((n.br.y : ℤ) - y0)
                (y1 - y0) (by omega) (by omega) (by omega)
              have hmm : min x1 x0 ≤ nx ∧ nx ≤ max x1 x0 := by
                rw [hnx]
                rcases le_or_lt 0 (x1 - x0) with hc | hc
                · obtain ⟨u1, u2⟩ := hbd.1 hc
                  constructor <;> omega
                · obtain ⟨u1, u2⟩ := hbd.2 (le_of_lt hc)
                  constructor <;> omega
              clear_value nx
              have hpnew := yclip_pop n hn (n.br.y : ℤ) nx x1 x0
                (by omega) (lt_irrefl _) hmm.1 hmm.2
                (fun _ => hz1) (fun _ => hz2)
              have hkey : pop4 (cs_compute_code n nx (n.br.y : ℤ)) + 1 ≤
                  pop4 (cs_compute_code n x1 y1) := by
                rw [pop4_code n hn x1 y1, if_neg hpair.1, if_pos hpair.2]
                omega
              exact ih x0 y0 nx (n.br.y : ℤ) (by omega)
            · rw [if_neg hBt]
              by_cases hR : cs_compute_code n x1 y1 &&& 2 ≠ 0
              · rw [if_pos hR]
                dsimp only
                have hpair := code_right_true n hn x1 y1 hR
                set ny := y0 + Int.tdiv ((y1 - y0) * ((n.br.x : ℤ) - x0))
                  (x1 - x0) with hny
                have hbd := tdiv_interp_bounds (y1 - y0) ((n.br.x : ℤ) - x0)
                  (x1 - x0) (by omega) (by omega) (by omega)
                have hmm : min y1 y0 ≤ ny ∧ ny ≤ max y1 y0 := by
                  rw [hny]
                  rcases le_or_lt 0 (y1 - y0) with hc | hc
                  · obtain ⟨u1, u2⟩ := hbd.1 hc
                    constructor <;> omega
                  · obtain ⟨u1, u2⟩ := hbd.2 (le_of_lt hc)
                    constructor <;> omega
                clear_value ny
                have hpnew := xclip_pop n hn (n.br.x : ℤ) ny y1 y0
                  (by omega) (lt_irrefl _) hmm.1 hmm.2
                  (fun _ => hz3) (fun _ => hz4)
                have hkey : pop4 (cs_compute_code n (n.br.x : ℤ) ny) + 1 ≤
                    pop4 (cs_compute_code n x1 y1) := by
                  rw [pop4_code n hn x1 y1, if_neg hpair.1, if_pos hpair.2]
                  omega
                exact ih x0 y0 (n.br.x : ℤ) ny (by omega)
              · rw [if_neg hR]
                by_cases hL : cs_compute_code n x1 y1 &&& 1 ≠ 0
                · rw [if_pos hL]
                  dsimp only
                  have hx1 : x1 < (n.tl.x : ℤ) := code_left_true n hn x1 y1 hL
                  set ny := y0 + Int.tdiv ((y1 - y0) * ((n.tl.x : ℤ) - x0))
                    (x1 - x0) with hny
                  have hbd := tdiv_interp_bounds_neg (y1 - y0)
                    ((n.tl.x : ℤ) - x0) (x1 - x0)
                    (by omega) (by omega) (by omega)
                  have hmm : min y1 y0 ≤ ny ∧ ny ≤ max y1 y0 := by
                    rw [hny]
                    rcases le_or_lt 0 (y1 - y0) with hc | hc
                    · obtain ⟨u1, u2⟩ := hbd.1 hc
                      constructor <;> omega
                    · obtain ⟨u1, u2⟩ := hbd.2 (le_of_lt hc)
                      constructor <;> omega
                  clear_value ny
                  have hpnew := xclip_pop n hn (n.tl.x : ℤ) ny y1 y0
                    (lt_irrefl _) (by omega) hmm.1 hmm.2
                    (fun _ => hz3) (fun _ => hz4)
                  have hkey : pop4 (cs_compute_code n (n.tl.x : ℤ) ny) + 1 ≤
                      pop4 (cs_compute_code n x1 y1) := by
                    rw [pop4_code n hn x1 y1, if_pos hx1]
                    omega
                  exact ih x0 y0 (n.tl.x : ℤ) ny (by omega)
                · exfalso
                  rcases code_cases n hn x1 y1 with h | h | h | h | h
                  exacts [hc1 h, hT h, hBt h, hR h, hL h]

/-- C10: for every clipping rectangle and every pair of endpoints, the
Cohen–Sutherland loop of `rect_clip_line` reaches the accept or reject
branch within finitely many iterations — five units of fuel always
suffice, since each endpoint's outcode has at most two bits set and every
clip strictly decreases the total bit count unless the next iteration
rejects. -/
theorem rect_clip_line_terminates (r : GRect) (p0 p1 : GPoint) :
    (rect_clip_line 5 r p0 p1).isSome = true := by
  unfold rect_clip_line
  have hn := rect_normalize_idem r
  have hm : pop4 (cs_compute_code (rect_normalize r) (p0.x : ℤ) (p0.y : ℤ)) +
      pop4 (cs_compute_code (rect_normalize r) (p1.x : ℤ) (p1.y : ℤ)) < 5 := by
    have h1 := pop4_code_le_two (rect_normalize r) hn (p0.x : ℤ) (p0.y : ℤ)
    have h2 := pop4_code_le_two (rect_normalize r) hn (p1.x : ℤ) (p1.y : ℤ)
    omega
  have h := clip_loop_some (rect_normalize r) hn 5
    (p0.x : ℤ) (p0.y : ℤ) (p1.x : ℤ) (p1.y : ℤ) hm
  dsimp only
  obtain ⟨res, hres⟩ := Option.isSome_iff_exists.mp h
  obtain ⟨accept, ⟨a0, b0⟩, ⟨a1, b1⟩⟩ := res
  rw [hres]
  dsimp only
  split_ifs <;> rfl
